import Mathlib

/-!
# wask: a minimal HTTP/1.0 client

Shallow embedding of `src/main.cpp`.

* A C `char` is a Lean `Char`; the program only ever compares a byte with
  `'\r'`, `'\n'` and `'\0'`.  A `std::string` / `std::string_view` is a `List Char`.
* `char buffer[buffer_size]` is a `List Char`; its contents before the first
  `read` are indeterminate, so they are a parameter of the read loop.
* The socket is the sequence of values its system calls return: the list of
  `write` return values and the list of data chunks delivered by successive
  `read` calls (after the last chunk `read` returns a value `<= 0`).
-/

namespace Wask

/-! ## Constants -/

/-- Source: `constexpr std::size_t buffer_size = 1024;` -/
def buffer_size : Nat := 1024

/-! ## URL splitting and the request -/

/-- Source: `extract_host_and_path`.  `std::find(url.cbegin(), url.cend(), '/')`
gives the position of the first `'/'` (or the end); the host is everything before
it and the path everything from it on. -/
def extract_host_and_path (url : List Char) : List Char × List Char :=
  (url.takeWhile (fun c => c != '/'), url.dropWhile (fun c => c != '/'))

/-- Source: `(path.empty() ? "/"s : path)`, the request target put in the request
line. -/
def request_target (path : List Char) : List Char :=
  if path.isEmpty then "/".toList else path

/-- Source: the expression assigned to `msg` in `main`. -/
def request_message (host path : List Char) : List Char :=
  "GET ".toList ++ request_target path ++
    " HTTP/1.0\r\n".toList ++ "Host: ".toList ++ host ++ "\r\n".toList ++
    "Accept: */*\r\n\r\n".toList

/-! ## Sending the request -/

/-- How `write_to_socket` ends. -/
inductive write_end
  /-- The remaining message became empty and the loop was left. -/
  | returned
  /-- A `write` returned a negative value: `perror("write() failed")`, `exit(1)`. -/
  | failed
  /-- A `write` returned more than it was offered: `msg.substr(n)` throws. -/
  | out_of_range
  /-- The call offering these bytes is issued and no return value is listed for it. -/
  | blocked (offered : List Char)
  deriving DecidableEq, Repr

/-- A run of `write_to_socket`: the `write` calls that returned, each with the
bytes it was offered and the value it returned, and how the function ended. -/
structure write_run where
  calls : List (List Char × Int)
  ending : write_end
  deriving DecidableEq, Repr

/-- Source: `write_to_socket`.  `results` are the values returned by the
successive `write(sockfd, msg.cbegin(), msg.size())` calls. -/
def write_to_socket : List Char → List Int → write_run
  | msg, [] => ⟨[], .blocked msg⟩
  | msg, n :: more =>
      if n < 0 then ⟨[(msg, n)], .failed⟩
      else if msg.length < n.toNat then ⟨[(msg, n)], .out_of_range⟩
      else if (msg.drop n.toNat).isEmpty then ⟨[(msg, n)], .returned⟩
      else
        let run := write_to_socket (msg.drop n.toNat) more
        ⟨(msg, n) :: run.calls, run.ending⟩

/-- Number of bytes accepted by the listed `write` calls. -/
def accepted (calls : List (List Char × Int)) : Nat :=
  (calls.map (fun call => call.2.toNat)).sum

/-! ## The response parser -/

/-- Source: `enum class read_state_t`. -/
inductive read_state_t
  | head
  | r
  | n
  | r2
  | body
  deriving DecidableEq, Repr

open read_state_t

/-- Source: the `switch (read_state)` statement, for one byte `c`.  The result is
the next state, or the text written to `stderr` just before `std::exit(1)`. -/
def switch_step (st : read_state_t) (c : Char) : Except String read_state_t :=
  match st with
  | head =>
      if c = '\r' then .ok r
      else if c = '\n' then .ok n
      else .ok head
  | r =>
      if c = '\n' then .ok n
      else .error "No \\n after \\r\n"
  | n =>
      if c = '\r' then .ok r2
      else if c = '\n' then .ok body
      else .ok head
  | r2 =>
      if c = '\n' then .ok body
      else .error "No \\n after \\r\\n\\r\n"
  | body => .ok body

/-- What `printf("%s", p)` writes, given the part of `buffer` from `p` to the end
of the array: the bytes before the first NUL.  `none` when the array holds no NUL
from `p` on, so that the scan runs past `buffer + buffer_size`. -/
def c_str : List Char → Option (List Char)
  | [] => none
  | c :: rest => if c = '\x00' then some [] else (c_str rest).map (fun s => c :: s)

/-- What handling one chunk does. -/
inductive chunk_result
  /-- The chunk was handled: the new state and the bytes written to `stdout`. -/
  | done (st : read_state_t) (printed : List Char)
  /-- The given text was written to `stderr` and `std::exit(1)` was called. -/
  | exit1 (msg : String)
  /-- A byte outside `buffer` was read. -/
  | overrun
  deriving DecidableEq, Repr

/-- Source: `for (const auto* p = buffer; '\0' != *p; ++p) ...`, run on the part
of `buffer` from `p` to the end of the array: the loop ends at a NUL, prints the
rest of the C string and breaks when the state is `body`, and otherwise hands the
byte to the `switch`. -/
def scan_loop : read_state_t → List Char → chunk_result
  | _, [] => .overrun
  | st, c :: rest =>
      if c = '\x00' then .done st []
      else if st = body then
        match c_str (c :: rest) with
        | some s => .done body s
        | none => .overrun
      else
        match switch_step st c with
        | .error msg => .exit1 msg
        | .ok st' => scan_loop st' rest

/-- Source: the body of the `while` loop before `bzero`: the `if/else` on
`read_state_t::body == read_state`, run on the whole `buffer`. -/
def process_buffer (st : read_state_t) (buffer : List Char) : chunk_result :=
  if st = body then
    match c_str buffer with
    | some s => .done body s
    | none => .overrun
  else scan_loop st buffer

/-- Effect of `read(sockfd, buffer, buffer_size - 1)` returning `data.length > 0`:
the bytes are stored at the front of `buffer`, the rest of it is left as it was. -/
def read_into (buffer data : List Char) : List Char :=
  data ++ buffer.drop data.length

/-- Source: `bzero(buffer, buffer_size)`. -/
def bzero_buffer : List Char := List.replicate buffer_size '\x00'

/-- How the read loop of `main` ends. -/
inductive run_result
  /-- The loop ended, `close(sockfd)`, `return 0`; `out` is all of `stdout`. -/
  | returned (out : List Char)
  /-- The run ended in `std::exit(1)` after writing `msg` to `stderr`. -/
  | exited (out : List Char) (msg : String)
  /-- A byte outside `buffer` was read. -/
  | overrun (out : List Char)
  deriving DecidableEq, Repr

/-- Source: the `while ((n = read(...)) > 0)` loop of `main`.  `chunks` are the
data returned by the successive `read` calls; after the last one `read`
returns a value `<= 0` and the loop ends. -/
def read_loop : read_state_t → List Char → List Char → List (List Char) → run_result
  | _, _, out, [] => .returned out
  | st, buffer, out, data :: more =>
      match process_buffer st (read_into buffer data) with
      | .done st' printed => read_loop st' bzero_buffer (out ++ printed) more
      | .exit1 msg => .exited out msg
      | .overrun => .overrun out

/-- The response handling of `main`: the read loop started in state `head` with
nothing written yet; `buffer0` is the content of the uninitialised `buffer`. -/
def main_read (buffer0 : List Char) (chunks : List (List Char)) : run_result :=
  read_loop head buffer0 [] chunks

/-- A run of `main` from the connected socket on: the `write` calls made, and the
result of the read loop, `none` when the read loop is never entered (no `read` is
issued). -/
structure session where
  writes : write_run
  response : Option run_result
  deriving DecidableEq, Repr

/-- Source: `main` from `extract_host_and_path(argv[argc - 1])` on, for a socket
that is connected: the request is built from the URL and sent with
`write_to_socket`; only when that returns is the read loop entered. -/
def main_session (url : List Char) (write_results : List Int) (buffer0 : List Char)
    (chunks : List (List Char)) : session :=
  let hp := extract_host_and_path url
  let run := write_to_socket (request_message hp.1 hp.2) write_results
  match run.ending with
  | .returned => ⟨run, some (main_read buffer0 chunks)⟩
  | _ => ⟨run, none⟩

/-- The exit status of a session; `none` when it does not end in an exit of the
process (a blocked `write`, an uncaught exception, a read outside `buffer`). -/
def session.status (s : session) : Option Nat :=
  match s.writes.ending, s.response with
  | .failed, _ => some 1
  | .returned, some (.returned _) => some 0
  | .returned, some (.exited _ _) => some 1
  | _, _ => none

/-- A chunk that `read(sockfd, buffer, buffer_size - 1)` can deliver. -/
def valid_chunk (data : List Char) : Prop :=
  0 < data.length ∧ data.length ≤ buffer_size - 1

instance (data : List Char) : Decidable (valid_chunk data) := by
  unfold valid_chunk; infer_instance

/-! ## Streams, header blocks and partitions (used to state the properties) -/

/-- The state machine run over a byte stream alone, with no chunk and no buffer:
each byte goes through `switch_step` until the state is `body`; the bytes after
that point are the body.  The result is the last state and the body bytes, or
the text of the fatal error. -/
def feed : read_state_t → List Char → Except String (read_state_t × List Char)
  | st, [] => .ok (st, [])
  | st, c :: rest =>
      if st = body then .ok (body, c :: rest)
      else
        match switch_step st c with
        | .error msg => .error msg
        | .ok st' => feed st' rest

/-- The bytes of a chunk before its first NUL. -/
def until_nul (data : List Char) : List Char :=
  data.takeWhile (fun c => c != '\x00')

/-- The content of `buffer` has a NUL right after the bytes stored by the first
`read` (none is required when there is no read). -/
def first_read_terminated (buffer0 : List Char) : List (List Char) → Prop
  | [] => True
  | data :: _ => buffer0[data.length]? = some '\x00'

/-- A header block: every line followed by the line ending `eol`, then one
more `eol` (the empty line). -/
def header_block (eol : List Char) (lines : List (List Char)) : List Char :=
  (lines.map (fun l => l ++ eol)).flatten ++ eol

/-- A header line: not empty, and holding neither `'\r'` nor `'\n'`. -/
def header_line (l : List Char) : Prop :=
  l ≠ [] ∧ '\r' ∉ l ∧ '\n' ∉ l

instance (l : List Char) : Decidable (header_line l) := by
  unfold header_line; infer_instance

instance (buffer0 : List Char) (chunks : List (List Char)) :
    Decidable (first_read_terminated buffer0 chunks) := by
  cases chunks <;> unfold first_read_terminated <;> infer_instance

/-- Handling several chunks in a row, each read into the cleared buffer: the
state after the last one and everything printed, or the first fatal exit. -/
def process_chunks : read_state_t → List (List Char) → chunk_result
  | st, [] => .done st []
  | st, data :: more =>
      match process_buffer st (read_into bzero_buffer data) with
      | .done st' printed =>
          match process_chunks st' more with
          | .done st2 printed2 => .done st2 (printed ++ printed2)
          | other => other
      | other => other

/-- The bytes end the header: their last bytes are `"\n\n"` or `"\n\r\n"`. -/
def ends_header (P : List Char) : Prop :=
  ['\n', '\n'] <:+ P ∨ ['\n', '\r', '\n'] <:+ P

/-- The last two bytes are a `'\r'` and a byte other than `'\n'`. -/
def cr_then_other (P : List Char) : Prop :=
  ∃ c, c ≠ '\n' ∧ ['\r', c] <:+ P

/-- No prefix of the bytes (the bytes themselves included) ends the header or ends
in a `'\r'` followed by a byte other than `'\n'`. -/
def clean_prefixes (P : List Char) : Prop :=
  ∀ Q, Q <+: P → ¬ ends_header Q ∧ ¬ cr_then_other Q

instance (P : List Char) : Decidable (ends_header P) := by
  unfold ends_header; infer_instance

instance (P : List Char) : Decidable (cr_then_other P) :=
  decidable_of_iff (∃ c ∈ P, c ≠ '\n' ∧ ['\r', c] <:+ P)
    ⟨fun ⟨c, _, h1, h2⟩ => ⟨c, h1, h2⟩,
      fun ⟨c, h1, h2⟩ => ⟨c, h2.subset (by simp), h1, h2⟩⟩

instance (P : List Char) : Decidable (clean_prefixes P) :=
  decidable_of_iff (∀ Q ∈ P.inits, ¬ ends_header Q ∧ ¬ cr_then_other Q)
    ⟨fun h Q hQ => h Q ((List.mem_inits Q P).mpr hQ),
      fun h Q hQ => h Q ((List.mem_inits Q P).mp hQ)⟩

/-! ## The specification's transition table -/

/-- The parser states as the specification names them. -/
inductive ParserState
  | Head
  | SawCR
  | SawLF
  | SawCRLF_CR
  | Body
  deriving DecidableEq, Repr

/-- The specification's name for each state of the source
(`head/r/n/r2/body`). -/
def spec_state : read_state_t → ParserState
  | head => .Head
  | r => .SawCR
  | n => .SawLF
  | r2 => .SawCRLF_CR
  | body => .Body

/-- The transition table as the specification words it, for the states other than
`Body`; `none` is the fatal `MalformedHeaderTermination`. -/
def spec_table : ParserState → Char → Option ParserState
  | .Head, c => if c = '\r' then some .SawCR else if c = '\n' then some .SawLF else some .Head
  | .SawCR, c => if c = '\n' then some .SawLF else none
  | .SawLF, c =>
      if c = '\r' then some .SawCRLF_CR else if c = '\n' then some .Body else some .Head
  | .SawCRLF_CR, c => if c = '\n' then some .Body else none
  | .Body, _ => some .Body

/-! ## The whole of `main` as a trace of events -/

/-- Source: `usage_message`. -/
def usage_message : String := "Usage: ./wask [-o OUTPUT_PATH] URL"

/-- What one `read(sockfd, buffer, buffer_size - 1)` call returns: the value `n`
and, when `n > 0`, the `n` bytes it stored in `buffer`. -/
structure read_ret where
  n : Int
  data : List Char
  deriving DecidableEq, Repr

/-- What a run of `main` does, as seen from outside. -/
inductive event
  /-- Text written to `stderr` (`fprintf(stderr, ...)`; for `perror(msg)` the text is
  `msg`, which the error description follows). -/
  | stderr (text : String)
  /-- Bytes written to `stdout` by one `printf("%s", ...)`. -/
  | stdout (bytes : List Char)
  /-- The call `socket(AF_INET, SOCK_STREAM, 0)` returned `fd`. -/
  | socket (fd : Int)
  /-- A `write` call on the socket: the bytes offered and the value returned. -/
  | write (offered : List Char) (ret : Int)
  /-- A `read` call on the socket returned `ret`. -/
  | read (ret : Int)
  /-- The call `close(sockfd)`. -/
  | close
  /-- The process ends with this status (`exit`, or `return` from `main`). -/
  | exit (status : Nat)
  deriving DecidableEq, Repr

/-- Source: `show_usage_and_exit`. -/
def show_usage_and_exit : List event :=
  [.stderr (usage_message ++ "\n"), .exit 1]

/-- Source: `show_error_and_exit`. -/
def show_error_and_exit (msg : String) : List event :=
  [.stderr msg, .exit 1]

/-- Source: `std::equal(argv[1], argv[1] + 2, "-o")`: the first two bytes of the
argument are `'-'` and `'o'` (an argument of fewer than two bytes differs from
`"-o"` at its terminating NUL at the latest). -/
def starts_with_dash_o : List Char → Bool
  | c0 :: c1 :: _ => c0 == '-' && c1 == 'o'
  | _ => false

/-- Source: `main` up to `extract_host_and_path(argv[argc - 1])`: the events of an
early exit, or the URL `argv[argc - 1]`.  `freopen_ok` tells whether
`std::freopen(argv[2], "w", stdout)` succeeds. -/
def main_arguments (argv : List (List Char)) (freopen_ok : Bool) :
    Except (List event) (List Char) :=
  if argv.length < 2 then .error show_usage_and_exit
  else if starts_with_dash_o (argv.getD 1 []) then
    if argv.length < 4 then .error show_usage_and_exit
    else if !freopen_ok then
      .error [.stderr ("Can\x27t open " ++ String.mk (argv.getD 2 []) ++ " for writing\n"),
        .exit 1]
    else .ok (argv.getLastD [])
  else .ok (argv.getLastD [])

/-- Source: the `while ((n = read(...)) > 0)` loop of `main` and the
`close(sockfd); return 0;` after it, as events.  `reads` are the results of the
successive `read` calls; the trace stops without an `exit` when a byte outside
`buffer` is read or when no result is listed for the next `read`. -/
def read_and_close : read_state_t → List Char → List read_ret → List event
  | _, _, [] => []
  | st, buffer, ret :: more =>
      if 0 < ret.n then
        .read ret.n ::
          match process_buffer st (read_into buffer ret.data) with
          | .done st' printed => .stdout printed :: read_and_close st' bzero_buffer more
          | .exit1 msg => [.stderr msg, .exit 1]
          | .overrun => []
      else [.read ret.n, .close, .exit 0]

/-- Everything outside the program that a run of `main` depends on. -/
structure env where
  /-- The argument vector, `argv[0]` included. -/
  argv : List (List Char)
  /-- Whether `std::freopen(argv[2], "w", stdout)` succeeds. -/
  freopen_ok : Bool
  /-- The value returned by `socket(...)`. -/
  socket_ret : Int
  /-- Whether `gethostbyname` finds the host. -/
  host_found : Bool
  /-- The value returned by `connect(...)`. -/
  connect_ret : Int
  /-- The values returned by the successive `write` calls. -/
  write_rets : List Int
  /-- The content of the uninitialised `buffer`. -/
  buffer0 : List Char
  /-- The results of the successive `read` calls. -/
  reads : List read_ret

/-- Source: `main`.  The trace of a run; it ends in an `exit` event unless the run
blocks in a system call, throws, or reads outside `buffer`. -/
def main (e : env) : List event :=
  match main_arguments e.argv e.freopen_ok with
  | .error events => events
  | .ok url =>
      let hp := extract_host_and_path url
      if e.socket_ret < 0 then .socket e.socket_ret :: show_error_and_exit "socket() failed"
      else if !e.host_found then
        .socket e.socket_ret :: show_error_and_exit "gethostbyname() failed"
      else if e.connect_ret < 0 then
        .socket e.socket_ret :: show_error_and_exit "connect() failed"
      else
        let run := write_to_socket (request_message hp.1 hp.2) e.write_rets
        .socket e.socket_ret :: (run.calls.map (fun call => event.write call.1 call.2) ++
          match run.ending with
          | .returned => read_and_close head e.buffer0 e.reads
          | .failed => show_error_and_exit "write() failed"
          | _ => [])

/-- An environment in which `freopen` succeeds, `socket` returns the descriptor 3
and the buffer starts zeroed. -/
def env_with (argv : List (List Char)) (host_found : Bool) (connect_ret : Int)
    (write_rets : List Int) (reads : List read_ret) : env :=
  ⟨argv, true, 3, host_found, connect_ret, write_rets, bzero_buffer, reads⟩

/-- The bytes written to `stdout` in a trace, in order. -/
def stdout_of (trace : List event) : List Char :=
  (trace.map (fun ev => match ev with | .stdout bytes => bytes | _ => [])).flatten

/-- The event stands for a system call or an output that went through: it is not a
diagnostic, not a `close` and not an exit. -/
def event.quiet : event → Bool
  | .stderr _ => false
  | .close => false
  | .exit _ => false
  | _ => true

/-- A part of a trace made of calls that went through and of output only: no
diagnostic, no `close`, no exit, and every `read` in it returned data. -/
def calm (evs : List event) : Prop :=
  ∀ ev ∈ evs, ev.quiet = true ∧ ∀ m, ev = .read m → 0 < m

/-- How a trace can end: not at all, with a last `read` that returned no data
followed by `close` and exit 0, or with a diagnostic and exit 1. -/
def trace_end (tail : List event) : Prop :=
  tail = [] ∨ (∃ m, m ≤ 0 ∧ tail = [.read m, .close, .exit 0]) ∨
    ∃ msg, tail = [.stderr msg, .exit 1]

/-! ## The read loop and the byte stream -/

theorem c_str_nul_free (d tail : List Char) (hd : '\x00' ∉ d) :
    c_str (d ++ '\x00' :: tail) = some d := by
  induction d with
  | nil => simp [c_str]
  | cons c rest ih =>
    simp only [List.mem_cons, not_or] at hd
    have hc : c ≠ '\x00' := fun h => hd.1 h.symm
    simp [c_str, hc, ih hd.2]

theorem scan_loop_nul_free (d tail : List Char) (hd : '\x00' ∉ d) (st : read_state_t)
    (hst : st ≠ body) :
    scan_loop st (d ++ '\x00' :: tail) =
      match feed st d with
      | .ok (st', printed) => .done st' printed
      | .error msg => .exit1 msg := by
  induction d generalizing st with
  | nil => simp [scan_loop, feed]
  | cons c rest ih =>
    simp only [List.mem_cons, not_or] at hd
    have hc : c ≠ '\x00' := fun h => hd.1 h.symm
    simp only [List.cons_append, scan_loop, feed, hc, hst, if_false]
    cases hs : switch_step st c with
    | error msg => simp
    | ok st' =>
      simp only
      by_cases hb : st' = body
      · subst hb
        cases rest with
        | nil => simp [scan_loop, feed]
        | cons c2 rest2 =>
          simp only [List.mem_cons, not_or] at hd
          have hc2 : c2 ≠ '\x00' := fun h => hd.2.1 h.symm
          have := c_str_nul_free (c2 :: rest2) tail (by simp [List.mem_cons, not_or]; exact ⟨fun h => hc2 h.symm, hd.2.2⟩)
          simp only [List.cons_append] at this
          simp [scan_loop, feed, hc2, this]
      · exact ih hd.2 st' hb

theorem process_buffer_nul_free (d tail : List Char) (hd : '\x00' ∉ d) (st : read_state_t) :
    process_buffer st (d ++ '\x00' :: tail) =
      match feed st d with
      | .ok (st', printed) => .done st' printed
      | .error msg => .exit1 msg := by
  unfold process_buffer
  by_cases hst : st = body
  · subst hst
    simp only [if_true, c_str_nul_free d tail hd]
    cases d <;> simp [feed]
  · simp only [hst, if_false]
    exact scan_loop_nul_free d tail hd st hst

theorem until_nul_nul_free (data : List Char) : '\x00' ∉ until_nul data := by
  intro h
  have := List.mem_takeWhile_imp h
  simp at this

theorem until_nul_of_nul_free (data : List Char) (h : '\x00' ∉ data) : until_nul data = data := by
  unfold until_nul
  rw [List.takeWhile_eq_self_iff]
  intro c hc
  have : c ≠ '\x00' := fun e => h (e ▸ hc)
  simpa using this

theorem read_into_split (buffer data : List Char)
    (h : buffer[data.length]? = some '\x00') :
    ∃ tail, read_into buffer data = until_nul data ++ '\x00' :: tail := by
  unfold read_into until_nul
  induction data generalizing buffer with
  | nil =>
    cases buffer with
    | nil => simp at h
    | cons b bs =>
      simp at h
      exact ⟨bs, by simp [h]⟩
  | cons c rest ih =>
    by_cases hc : c = '\x00'
    · subst hc
      exact ⟨rest ++ List.drop (rest.length + 1) buffer, by simp [List.takeWhile]⟩
    · cases buffer with
      | nil => simp at h
      | cons b bs =>
        have h2 : bs[rest.length]? = some '\x00' := by simpa using h
        obtain ⟨tail, ht⟩ := ih bs h2
        refine ⟨tail, ?_⟩
        simp only [List.length_cons, List.drop_succ_cons, List.cons_append]
        rw [ht]
        have hc2 : (c != '\x00') = true := by simpa using hc
        simp [List.takeWhile, hc2]

theorem bzero_terminated (data : List Char) (h : valid_chunk data) :
    bzero_buffer[data.length]? = some '\x00' := by
  unfold bzero_buffer buffer_size
  unfold valid_chunk buffer_size at h
  rw [List.getElem?_replicate]
  have : data.length < 1024 := by omega
  simp [this]

theorem feed_body (d : List Char) : feed body d = .ok (body, d) := by
  cases d <;> simp [feed]

theorem feed_pre_body_silent (st : read_state_t) (d : List Char) (st' : read_state_t)
    (o : List Char) (h : feed st d = .ok (st', o)) (hb : st' ≠ body) : o = [] := by
  induction d generalizing st with
  | nil => simp [feed] at h; exact h.2
  | cons c rest ih =>
    unfold feed at h
    by_cases hst : st = body
    · simp [hst] at h; exact absurd h.1.symm hb
    · simp only [hst, if_false] at h
      cases hs : switch_step st c with
      | error msg => simp [hs] at h
      | ok s2 => simp only [hs] at h; exact ih s2 h

theorem feed_append (st : read_state_t) (a b : List Char) :
    feed st (a ++ b) =
      match feed st a with
      | .error msg => .error msg
      | .ok (st', o) =>
        match feed st' b with
        | .error msg => .error msg
        | .ok (st2, o') => .ok (st2, o ++ o') := by
  induction a generalizing st with
  | nil =>
    simp only [List.nil_append, feed]
    cases feed st b with
    | error m => rfl
    | ok p => simp
  | cons c rest ih =>
    by_cases hst : st = body
    · subst hst
      simp [feed_body]
    · simp only [List.cons_append, feed, hst, if_false]
      cases hs : switch_step st c with
      | error msg => simp
      | ok s2 => simp only; exact ih s2

/-- The bytes the read loop scans: every chunk cut at its first NUL. -/
theorem read_loop_eq_feed (chunks : List (List Char)) (st : read_state_t)
    (buffer out : List Char)
    (hv : ∀ c ∈ chunks, valid_chunk c)
    (hb : first_read_terminated buffer chunks) :
    read_loop st buffer out chunks =
      match feed st (chunks.map until_nul).flatten with
      | .ok (_, o) => .returned (out ++ o)
      | .error msg => .exited out msg := by
  induction chunks generalizing st buffer out with
  | nil => simp [read_loop, feed]
  | cons data more ih =>
    obtain ⟨tail, ht⟩ := read_into_split buffer data hb
    have hmore : first_read_terminated bzero_buffer more := by
      cases more with
      | nil => trivial
      | cons d2 _ => exact bzero_terminated d2 (hv d2 (by simp))
    have hv2 : ∀ c ∈ more, valid_chunk c := fun c hc => hv c (by simp [hc])
    simp only [read_loop, ht, process_buffer_nul_free _ tail (until_nul_nul_free data),
      List.map_cons, List.flatten_cons, feed_append]
    cases hf : feed st (until_nul data) with
    | error msg => simp
    | ok p =>
      obtain ⟨s2, o⟩ := p
      simp only
      rw [ih s2 bzero_buffer (out ++ o) hv2 hmore]
      cases hf2 : feed s2 (List.map until_nul more).flatten with
      | error msg =>
        have hs2 : s2 ≠ body := by
          intro e; subst e; simp [feed_body] at hf2
        have := feed_pre_body_silent st _ s2 o hf hs2
        simp [this]
      | ok q => simp [List.append_assoc]

/-! ## Header blocks -/

theorem feed_head_plain (l rest : List Char) (hr : '\r' ∉ l) (hn : '\n' ∉ l) :
    feed head (l ++ rest) = feed head rest := by
  induction l with
  | nil => rfl
  | cons c t ih =>
    simp only [List.mem_cons, not_or] at hr hn
    have h1 : c ≠ '\r' := fun e => hr.1 e.symm
    have h2 : c ≠ '\n' := fun e => hn.1 e.symm
    simp only [List.cons_append, feed, switch_step, h1, h2, if_false]
    simpa using ih hr.2 hn.2

theorem feed_n_line (l rest : List Char) (hl : header_line l) :
    feed n (l ++ rest) = feed head rest := by
  obtain ⟨hne, hr, hn⟩ := hl
  cases l with
  | nil => exact absurd rfl hne
  | cons c t =>
    simp only [List.mem_cons, not_or] at hr hn
    have h1 : c ≠ '\r' := fun e => hr.1 e.symm
    have h2 : c ≠ '\n' := fun e => hn.1 e.symm
    simp only [List.cons_append, feed, switch_step, h1, h2, if_false]
    simpa using feed_head_plain t rest hr.2 hn.2

theorem feed_line (st : read_state_t) (hst : st = head ∨ st = n) (l rest : List Char)
    (hl : header_line l) : feed st (l ++ rest) = feed head rest := by
  rcases hst with h | h
  · subst h; exact feed_head_plain l rest hl.2.1 hl.2.2
  · subst h; exact feed_n_line l rest hl

theorem feed_head_crlf (rest : List Char) :
    feed head ('\r' :: '\n' :: rest) = feed n rest := by
  simp [feed, switch_step]

theorem feed_head_lf (rest : List Char) :
    feed head ('\n' :: rest) = feed n rest := by
  simp [feed, switch_step]

theorem feed_n_crlf (rest : List Char) :
    feed n ('\r' :: '\n' :: rest) = .ok (body, rest) := by
  simp [feed, switch_step, feed_body]

theorem feed_n_lf (rest : List Char) :
    feed n ('\n' :: rest) = .ok (body, rest) := by
  simp [feed, switch_step, feed_body]

theorem feed_lines_crlf (lines : List (List Char)) (hl : ∀ l ∈ lines, header_line l)
    (st : read_state_t) (hst : st = head ∨ st = n) (rest : List Char) :
    feed st ((lines.map (fun l => l ++ ['\r', '\n'])).flatten ++ rest) =
      feed (if lines = [] then st else n) rest := by
  induction lines generalizing st with
  | nil => simp
  | cons l more ih =>
    have hl1 := hl l (by simp)
    have hl2 : ∀ x ∈ more, header_line x := fun x hx => hl x (by simp [hx])
    simp only [List.map_cons, List.flatten_cons, List.append_assoc, List.cons_append,
      List.nil_append]
    rw [feed_line st hst l _ hl1, feed_head_crlf, ih hl2 n (Or.inr rfl)]
    simp

theorem feed_lines_lf (lines : List (List Char)) (hl : ∀ l ∈ lines, header_line l)
    (st : read_state_t) (hst : st = head ∨ st = n) (rest : List Char) :
    feed st ((lines.map (fun l => l ++ ['\n'])).flatten ++ rest) =
      feed (if lines = [] then st else n) rest := by
  induction lines generalizing st with
  | nil => simp
  | cons l more ih =>
    have hl1 := hl l (by simp)
    have hl2 : ∀ x ∈ more, header_line x := fun x hx => hl x (by simp [hx])
    simp only [List.map_cons, List.flatten_cons, List.append_assoc, List.cons_append,
      List.nil_append]
    rw [feed_line st hst l _ hl1, feed_head_lf, ih hl2 n (Or.inr rfl)]
    simp

theorem feed_header_crlf (lines : List (List Char)) (hne : lines ≠ [])
    (hl : ∀ l ∈ lines, header_line l) (B : List Char) :
    feed head (header_block "\r\n".toList lines ++ B) = .ok (body, B) := by
  have : "\r\n".toList = ['\r', '\n'] := rfl
  unfold header_block
  rw [this, List.append_assoc, feed_lines_crlf lines hl head (Or.inl rfl)]
  simp only [hne, if_false, List.cons_append, List.nil_append]
  exact feed_n_crlf B

theorem feed_header_lf (lines : List (List Char)) (hne : lines ≠ [])
    (hl : ∀ l ∈ lines, header_line l) (B : List Char) :
    feed head (header_block "\n".toList lines ++ B) = .ok (body, B) := by
  have : "\n".toList = ['\n'] := rfl
  unfold header_block
  rw [this, List.append_assoc, feed_lines_lf lines hl head (Or.inl rfl)]
  simp only [hne, if_false, List.cons_append, List.nil_append]
  exact feed_n_lf B

theorem nul_free_header (eol : List Char) (lines : List (List Char))
    (he : '\x00' ∉ eol) (hl : ∀ l ∈ lines, '\x00' ∉ l) :
    '\x00' ∉ header_block eol lines := by
  unfold header_block
  simp only [List.mem_append, List.mem_flatten, List.mem_map, not_or, not_exists, not_and]
  refine ⟨?_, he⟩
  rintro x ⟨l, hlm, rfl⟩ hx
  rcases List.mem_append.mp hx with h | h
  · exact hl l hlm h
  · exact he h

theorem visible_of_nul_free (chunks : List (List Char)) (h : '\x00' ∉ chunks.flatten) :
    (chunks.map until_nul).flatten = chunks.flatten := by
  induction chunks with
  | nil => rfl
  | cons c more ih =>
    simp only [List.flatten_cons, List.mem_append, not_or] at h
    simp [until_nul_of_nul_free c h.1, ih h.2]

/-- Run of the read loop on a NUL-free stream. -/
theorem main_read_nul_free (buffer0 : List Char) (chunks : List (List Char))
    (hv : ∀ c ∈ chunks, valid_chunk c) (hb : first_read_terminated buffer0 chunks)
    (hz : '\x00' ∉ chunks.flatten) :
    main_read buffer0 chunks =
      match feed head chunks.flatten with
      | .ok (_, o) => .returned o
      | .error msg => .exited [] msg := by
  unfold main_read
  rw [read_loop_eq_feed chunks head buffer0 [] hv hb, visible_of_nul_free chunks hz]
  cases feed head chunks.flatten <;> simp

/-! ## Fatal errors -/

/-- Both texts that `switch_step` can write before `std::exit(1)`. -/
theorem switch_step_error (st : read_state_t) (c : Char) (msg : String)
    (h : switch_step st c = .error msg) :
    msg = "No \\n after \\r\n" ∨ msg = "No \\n after \\r\\n\\r\n" := by
  cases st <;> simp only [switch_step] at h <;> (try split_ifs at h) <;> simp_all

theorem feed_error (st : read_state_t) (d : List Char) (msg : String)
    (h : feed st d = .error msg) :
    msg = "No \\n after \\r\n" ∨ msg = "No \\n after \\r\\n\\r\n" := by
  induction d generalizing st with
  | nil => simp [feed] at h
  | cons c rest ih =>
    unfold feed at h
    by_cases hst : st = body
    · simp [hst] at h
    · simp only [hst, if_false] at h
      cases hs : switch_step st c with
      | error m =>
        simp only [hs, Except.error.injEq] at h
        exact h ▸ switch_step_error st c m hs
      | ok s2 => simp only [hs] at h; exact ih s2 h

theorem feed_error_append (st : read_state_t) (a b : List Char) (msg : String)
    (h : feed st a = .error msg) : feed st (a ++ b) = .error msg := by
  rw [feed_append, h]

theorem feed_cr_other (q : read_state_t) (hq : q ≠ body) (c : Char) (hc : c ≠ '\n') :
    ∃ msg, feed q ['\r', c] = .error msg := by
  cases q <;> simp_all [feed, switch_step]

theorem visible_prefix (chunks : List (List Char)) (A rest : List Char)
    (hA : '\x00' ∉ A) (hp : chunks.flatten = A ++ rest) :
    ∃ X, (chunks.map until_nul).flatten = A ++ X := by
  induction chunks generalizing A with
  | nil =>
    simp only [List.flatten_nil] at hp
    have : A = [] := (List.append_eq_nil.mp hp.symm).1
    exact ⟨[], by simp [this]⟩
  | cons c cs ih =>
    simp only [List.flatten_cons] at hp
    rcases List.append_eq_append_iff.mp hp with ⟨a', h1, h2⟩ | ⟨c', h1, h2⟩
    · subst h1
      simp only [List.mem_append, not_or] at hA
      obtain ⟨X, hX⟩ := ih a' hA.2 h2
      exact ⟨X, by simp [until_nul_of_nul_free c hA.1, hX]⟩
    · subst h1
      refine ⟨until_nul c' ++ (cs.map until_nul).flatten, ?_⟩
      have : until_nul (A ++ c') = A ++ until_nul c' := by
        unfold until_nul
        rw [List.takeWhile_append_of_pos]
        intro x hx
        have : x ≠ '\x00' := fun e => hA (e ▸ hx)
        simpa using this
      simp [this]

/-! ## Sending the request: lemmas -/

theorem write_calls_offered (results : List Int) (msg : List Char) :
    ∀ (i : Nat) (call : List Char × Int), (write_to_socket msg results).calls[i]? = some call →
      call.1 = msg.drop (accepted ((write_to_socket msg results).calls.take i)) := by
  induction results generalizing msg with
  | nil => intro i call h; simp [write_to_socket] at h
  | cons n more ih =>
    intro i call h
    unfold write_to_socket at h ⊢
    split_ifs at h ⊢ with h1 h2 h3
    · cases i with
      | zero => simp at h; simp [accepted, ← h]
      | succ j => simp at h
    · cases i with
      | zero => simp at h; simp [accepted, ← h]
      | succ j => simp at h
    · cases i with
      | zero => simp at h; simp [accepted, ← h]
      | succ j => simp at h
    · cases i with
      | zero => simp at h; simp [accepted, ← h]
      | succ j =>
        simp only [List.getElem?_cons_succ] at h
        have := ih (msg.drop n.toNat) j call h
        rw [this]
        simp [accepted, List.drop_drop, Nat.add_comm]

/-- What a run of `write_to_socket` whose calls all accept a prefix looks like. -/
theorem write_run_shape (results : List Int) (msg : List Char) (hmsg : msg ≠ [])
    (hacc : ∀ call ∈ (write_to_socket msg results).calls,
      0 ≤ call.2 ∧ call.2 ≤ (call.1.length : Int)) :
    (∀ call ∈ (write_to_socket msg results).calls, call.1 ≠ []) ∧
    (((write_to_socket msg results).ending = .returned ∧
        accepted (write_to_socket msg results).calls = msg.length ∧
        ((write_to_socket msg results).calls.map
          (fun call => call.1.take call.2.toNat)).flatten = msg) ∨
      ((write_to_socket msg results).ending
          = .blocked (msg.drop (accepted (write_to_socket msg results).calls)) ∧
        msg.drop (accepted (write_to_socket msg results).calls) ≠ [] ∧
        accepted (write_to_socket msg results).calls = (results.map Int.toNat).sum ∧
        (write_to_socket msg results).calls.length = results.length)) := by
  induction results generalizing msg with
  | nil => simp [write_to_socket, accepted, hmsg]
  | cons n more ih =>
    unfold write_to_socket at hacc ⊢
    split_ifs at hacc ⊢ with h1 h2 h3
    · have := (hacc (msg, n) (by simp)).1
      omega
    · have := (hacc (msg, n) (by simp)).2
      simp only at this
      omega
    · refine ⟨by simpa using hmsg, Or.inl ⟨rfl, ?_, ?_⟩⟩
      · have h4 : msg.length ≤ n.toNat := by simpa [List.isEmpty_iff] using h3
        simp only [accepted, List.map_cons, List.map_nil, List.sum_cons, List.sum_nil]
        omega
      · have h4 : msg.length ≤ n.toNat := by simpa [List.isEmpty_iff] using h3
        simp [List.take_of_length_le h4]
    · have hne : msg.drop n.toNat ≠ [] := by simpa [List.isEmpty_iff] using h3
      have hacc2 : ∀ call ∈ (write_to_socket (msg.drop n.toNat) more).calls,
          0 ≤ call.2 ∧ call.2 ≤ (call.1.length : Int) :=
        fun c hc => hacc c (by simp [hc])
      obtain ⟨hne2, hrest⟩ := ih (msg.drop n.toNat) hne hacc2
      have hlen : n.toNat ≤ msg.length := by omega
      refine ⟨?_, ?_⟩
      · intro call hc
        simp only [List.mem_cons] at hc
        rcases hc with rfl | hc
        · exact hmsg
        · exact hne2 call hc
      · rcases hrest with ⟨he, ha, hf⟩ | ⟨he, hd, ha, hl⟩
        · refine Or.inl ⟨he, ?_, ?_⟩
          · simp only [accepted, List.map_cons, List.sum_cons] at ha ⊢
            rw [ha, List.length_drop]
            omega
          · simp only [List.map_cons, List.flatten_cons, hf]
            exact List.take_append_drop _ _
        · refine Or.inr ⟨?_, ?_, ?_, ?_⟩
          · simp only [he, accepted, List.map_cons, List.sum_cons, List.drop_drop]
          · simp only [accepted, List.map_cons, List.sum_cons] at hd ⊢
            rw [List.drop_drop] at hd
            exact hd
          · simp only [accepted, List.map_cons, List.sum_cons] at ha ⊢
            rw [ha]
          · simp [hl]

theorem write_negative_is_last (results : List Int) (msg : List Char)
    (pre post : List (List Char × Int)) (call : List Char × Int)
    (h : (write_to_socket msg results).calls = pre ++ call :: post) (hneg : call.2 < 0) :
    post = [] ∧ (write_to_socket msg results).ending = .failed ∧ ∀ c ∈ pre, 0 ≤ c.2 := by
  induction results generalizing msg pre with
  | nil => simp [write_to_socket] at h
  | cons n more ih =>
    unfold write_to_socket at h ⊢
    split_ifs at h ⊢ with h1 h2 h3
    · cases pre with
      | nil => simp at h; simp [h.2]
      | cons p pre2 => simp at h
    · cases pre with
      | nil => simp at h; rw [← h.1] at hneg; exact absurd hneg h1
      | cons p pre2 => simp at h
    · cases pre with
      | nil => simp at h; rw [← h.1] at hneg; exact absurd hneg h1
      | cons p pre2 => simp at h
    · cases pre with
      | nil =>
        simp only [List.nil_append, List.cons.injEq] at h
        rw [← h.1] at hneg; exact absurd hneg h1
      | cons p pre2 =>
        simp only [List.cons_append, List.cons.injEq] at h
        obtain ⟨hp, hrest⟩ := h
        obtain ⟨a, b, c⟩ := ih (msg.drop n.toNat) pre2 hrest
        refine ⟨a, b, ?_⟩
        intro x hx
        simp only [List.mem_cons] at hx
        rcases hx with rfl | hx
        · rw [← hp]; simpa using h1
        · exact c x hx

theorem write_failed_has_negative (results : List Int) (msg : List Char)
    (h : (write_to_socket msg results).ending = .failed) :
    ∃ call ∈ (write_to_socket msg results).calls, call.2 < 0 := by
  induction results generalizing msg with
  | nil => simp [write_to_socket] at h
  | cons n more ih =>
    unfold write_to_socket at h ⊢
    split_ifs at h ⊢ with h1 h2 h3
    · exact ⟨(msg, n), by simp, h1⟩
    · obtain ⟨c, hc, hn⟩ := ih (msg.drop n.toNat) h
      exact ⟨c, by simp [hc], hn⟩

theorem main_session_writes (url : List Char) (results : List Int) (buffer0 : List Char)
    (chunks : List (List Char)) :
    (main_session url results buffer0 chunks).writes =
      write_to_socket (request_message (extract_host_and_path url).1
        (extract_host_and_path url).2) results := by
  unfold main_session
  simp only
  split <;> rfl

theorem main_session_response (url : List Char) (results : List Int) (buffer0 : List Char)
    (chunks : List (List Char)) :
    (main_session url results buffer0 chunks).response =
      if (main_session url results buffer0 chunks).writes.ending = .returned
      then some (main_read buffer0 chunks) else none := by
  rw [main_session_writes]
  unfold main_session
  simp only
  split
  · next h => simp [h]
  · next h => rw [if_neg (fun e => h e)]

/-! ## URL splitting: lemmas -/

theorem takeWhile_not_slash (url : List Char) :
    '/' ∉ url.takeWhile (fun c => c != '/') := by
  intro h
  have := List.mem_takeWhile_imp h
  simp at this

theorem dropWhile_slash (url : List Char) :
    url.dropWhile (fun c => c != '/') = [] ∨
      ∃ rest, url.dropWhile (fun c => c != '/') = '/' :: rest := by
  induction url with
  | nil => left; rfl
  | cons c t ih =>
    by_cases hc : c = '/'
    · right; exact ⟨t, by simp [List.dropWhile, hc]⟩
    · have : (c != '/') = true := by simpa using hc
      simpa [List.dropWhile, this] using ih

theorem split_no_slash (input : List Char) (h : '/' ∉ input) :
    input.takeWhile (fun c => c != '/') = input ∧ input.dropWhile (fun c => c != '/') = [] := by
  have hall : ∀ c ∈ input, (c != '/') = true := by
    intro c hc
    have : c ≠ '/' := fun e => h (e ▸ hc)
    simpa using this
  exact ⟨List.takeWhile_eq_self_iff.mpr hall, List.dropWhile_eq_nil_iff.mpr hall⟩

/-! ## The response parser: properties -/

/-- C1 (as amended): for every CRLF header block of one or more header lines, every
body `B`, both free of NUL bytes, and every partition of header and body into
chunks that `read` can deliver, the read loop started on a buffer holding a NUL
right after the first chunk returns with exactly `B` written to `stdout`. -/
theorem read_loop_emits_exactly_body (lines : List (List Char)) (B : List Char)
    (chunks : List (List Char)) (buffer0 : List Char)
    (hne : lines ≠ [])
    (hl : ∀ l ∈ lines, header_line l)
    (hlz : ∀ l ∈ lines, '\x00' ∉ l)
    (hBz : '\x00' ∉ B)
    (hv : ∀ c ∈ chunks, valid_chunk c)
    (hp : chunks.flatten = header_block "\r\n".toList lines ++ B)
    (hb : first_read_terminated buffer0 chunks) :
    main_read buffer0 chunks = .returned B := by
  have hz : '\x00' ∉ chunks.flatten := by
    rw [hp, List.mem_append, not_or]
    exact ⟨nul_free_header _ lines (by decide) hlz, hBz⟩
  rw [main_read_nul_free buffer0 chunks hv hb hz, hp, feed_header_crlf lines hne hl B]

set_option maxRecDepth 100000 in
/-- C1, end-to-end scenario: the response of the specification delivered in three
reads, the second of which ends inside the blank line. -/
theorem read_loop_emits_exactly_body_witness :
    main_read bzero_buffer
      ["HTTP/1.0 200 OK\r\nContent-Ty".toList, "pe: text/plain\r\n\r".toList, "\nhello".toList]
      = .returned "hello".toList :=
  read_loop_emits_exactly_body
    ["HTTP/1.0 200 OK".toList, "Content-Type: text/plain".toList] "hello".toList
    ["HTTP/1.0 200 OK\r\nContent-Ty".toList, "pe: text/plain\r\n\r".toList, "\nhello".toList]
    bzero_buffer (by decide) (by decide) (by decide) (by decide) (by decide) (by decide)
    (by decide)

set_option maxRecDepth 100000 in
/-- C1 fails as stated: a NUL in the body cuts the output short, a NUL in a header
line hides the rest of the chunk from the parser, and bytes left in the
uninitialised buffer after the first chunk are written out as body. -/
theorem read_loop_body_counterexample :
    (header_line "HTTP/1.0 200 OK".toList ∧
      valid_chunk "HTTP/1.0 200 OK\r\n\r\na\x00b".toList ∧
      "HTTP/1.0 200 OK\r\n\r\na\x00b".toList
        = header_block "\r\n".toList ["HTTP/1.0 200 OK".toList] ++ "a\x00b".toList ∧
      main_read bzero_buffer ["HTTP/1.0 200 OK\r\n\r\na\x00b".toList] = .returned "a".toList ∧
      main_read bzero_buffer ["HTTP/1.0 200 OK\r\n\r\na\x00b".toList]
        ≠ .returned "a\x00b".toList) ∧
    (header_line "X: a\x00b".toList ∧
      valid_chunk "X: a\x00b\r\n\r\nhello".toList ∧
      "X: a\x00b\r\n\r\nhello".toList
        = header_block "\r\n".toList ["X: a\x00b".toList] ++ "hello".toList ∧
      main_read bzero_buffer ["X: a\x00b\r\n\r\nhello".toList] = .returned [] ∧
      main_read bzero_buffer ["X: a\x00b\r\n\r\nhello".toList] ≠ .returned "hello".toList) ∧
    ((List.replicate 24 'z' ++ List.replicate 1000 '\x00').length = buffer_size ∧
      main_read (List.replicate 24 'z' ++ List.replicate 1000 '\x00')
        ["HTTP/1.0 200 OK\r\n\r\nhi".toList] = .returned "hizzz".toList ∧
      main_read (List.replicate 24 'z' ++ List.replicate 1000 '\x00')
        ["HTTP/1.0 200 OK\r\n\r\nhi".toList] ≠ .returned "hi".toList) := by
  decide

/-- C2 (as amended): when the state machine has not reached `body` on the bytes `P`
and the stream goes on with `'\r'` and then a byte `c` that is neither `'\n'` nor
NUL, with no NUL in `P`, then for every partition of the stream into chunks that
`read` can deliver (the buffer holding a NUL right after the first chunk) the run
ends in `std::exit(1)` after one of the two header-termination diagnostics, with
nothing written to `stdout`. -/
theorem cr_without_lf_is_fatal (P rest : List Char) (c : Char)
    (chunks : List (List Char)) (buffer0 : List Char)
    (hc : c ≠ '\n') (hcz : c ≠ '\x00') (hPz : '\x00' ∉ P)
    (hpre : ∀ o, feed head P ≠ .ok (body, o))
    (hv : ∀ x ∈ chunks, valid_chunk x)
    (hp : chunks.flatten = P ++ '\r' :: c :: rest)
    (hb : first_read_terminated buffer0 chunks) :
    main_read buffer0 chunks = .exited [] "No \\n after \\r\n" ∨
      main_read buffer0 chunks = .exited [] "No \\n after \\r\\n\\r\n" := by
  have hA : '\x00' ∉ P ++ ['\r', c] := by
    simp only [List.mem_append, List.mem_cons, List.mem_singleton, not_or, List.not_mem_nil,
      or_false]
    exact ⟨hPz, by decide, fun e => hcz e.symm⟩
  have hp2 : chunks.flatten = (P ++ ['\r', c]) ++ rest := by simp [hp]
  obtain ⟨X, hX⟩ := visible_prefix chunks _ rest hA hp2
  have herr : ∃ msg, feed head (P ++ ['\r', c]) = .error msg := by
    rw [feed_append]
    cases hf : feed head P with
    | error m => exact ⟨m, rfl⟩
    | ok p =>
      obtain ⟨q, o⟩ := p
      have hq : q ≠ body := fun e => hpre o (by rw [hf, e])
      obtain ⟨m, hm⟩ := feed_cr_other q hq c hc
      exact ⟨m, by simp [hm]⟩
  obtain ⟨msg, hmsg⟩ := herr
  have hrun : main_read buffer0 chunks = .exited [] msg := by
    unfold main_read
    rw [read_loop_eq_feed chunks head buffer0 [] hv hb, hX, feed_error_append _ _ _ _ hmsg]
  rcases feed_error _ _ _ hmsg with h | h
  · exact Or.inl (by rw [hrun, h])
  · exact Or.inr (by rw [hrun, h])

set_option maxRecDepth 100000 in
/-- C2, instance: the `'\r'` ends one read and the byte after it starts the next. -/
theorem cr_without_lf_is_fatal_witness :
    main_read bzero_buffer ["HTTP/1.0 200 OK\r\nX: a\r".toList, "b\r\n\r\nhello".toList]
        = .exited [] "No \\n after \\r\n" ∨
      main_read bzero_buffer ["HTTP/1.0 200 OK\r\nX: a\r".toList, "b\r\n\r\nhello".toList]
        = .exited [] "No \\n after \\r\\n\\r\n" :=
  cr_without_lf_is_fatal "HTTP/1.0 200 OK\r\nX: a".toList "\r\n\r\nhello".toList 'b'
    ["HTTP/1.0 200 OK\r\nX: a\r".toList, "b\r\n\r\nhello".toList] bzero_buffer
    (by decide) (by decide) (by decide)
    (by
      intro o h
      have h2 : feed head "HTTP/1.0 200 OK\r\nX: a".toList = .ok (head, []) := by rfl
      rw [h2] at h
      cases h)
    (by decide) (by decide) (by decide)

set_option maxRecDepth 100000 in
/-- C2 fails as stated: a NUL right after the `'\r'` is a byte other than `'\n'`,
yet the scan of the chunk stops there and the run goes on to return 0 with body
bytes written; and bytes left in the uninitialised buffer after the first chunk can
take the parser to `body` before the `'\r'` arrives. -/
theorem cr_without_lf_counterexample :
    (feed head "HTTP/1.0 200 OK".toList = .ok (head, []) ∧
      valid_chunk "HTTP/1.0 200 OK\r\x00".toList ∧ valid_chunk "\n\nhello".toList ∧
      ["HTTP/1.0 200 OK\r\x00".toList, "\n\nhello".toList].flatten
        = "HTTP/1.0 200 OK".toList ++ '\r' :: '\x00' :: "\n\nhello".toList ∧
      main_read bzero_buffer ["HTTP/1.0 200 OK\r\x00".toList, "\n\nhello".toList]
        = .returned "hello".toList) ∧
    (feed head "HTTP/1.0 200 OK".toList = .ok (head, []) ∧
      ("X\n\n".toList ++ List.replicate 1021 '\x00').length = buffer_size ∧
      valid_chunk "H".toList ∧ valid_chunk "TTP/1.0 200 OK\rX".toList ∧
      ["H".toList, "TTP/1.0 200 OK\rX".toList].flatten
        = "HTTP/1.0 200 OK".toList ++ '\r' :: 'X' :: [] ∧
      main_read ("X\n\n".toList ++ List.replicate 1021 '\x00')
        ["H".toList, "TTP/1.0 200 OK\rX".toList] = .returned "TTP/1.0 200 OK\rX".toList) :=
  ⟨⟨rfl, by decide, by decide, by decide, by decide⟩,
    ⟨rfl, by decide, by decide, by decide, by decide, by decide⟩⟩

/-- C3 (as amended): for one or more header lines and a body `B`, all free of NUL
bytes, the header block written with `"\n"` line endings followed by `B`, in any
partition into chunks that `read` can deliver, makes the read loop return with
exactly `B` written, which is also what any partition of the same header block
written with `"\r\n"` line endings followed by `B` gives (each run on a buffer
holding a NUL right after its first chunk). -/
theorem lf_header_same_as_crlf (lines : List (List Char)) (B : List Char)
    (chunks_lf chunks_crlf : List (List Char)) (buffer_lf buffer_crlf : List Char)
    (hne : lines ≠ [])
    (hl : ∀ l ∈ lines, header_line l)
    (hlz : ∀ l ∈ lines, '\x00' ∉ l)
    (hBz : '\x00' ∉ B)
    (hv1 : ∀ c ∈ chunks_lf, valid_chunk c)
    (hv2 : ∀ c ∈ chunks_crlf, valid_chunk c)
    (hp1 : chunks_lf.flatten = header_block "\n".toList lines ++ B)
    (hp2 : chunks_crlf.flatten = header_block "\r\n".toList lines ++ B)
    (hb1 : first_read_terminated buffer_lf chunks_lf)
    (hb2 : first_read_terminated buffer_crlf chunks_crlf) :
    main_read buffer_lf chunks_lf = .returned B ∧
      main_read buffer_lf chunks_lf = main_read buffer_crlf chunks_crlf := by
  have hz1 : '\x00' ∉ chunks_lf.flatten := by
    rw [hp1, List.mem_append, not_or]
    exact ⟨nul_free_header _ lines (by decide) hlz, hBz⟩
  have hz2 : '\x00' ∉ chunks_crlf.flatten := by
    rw [hp2, List.mem_append, not_or]
    exact ⟨nul_free_header _ lines (by decide) hlz, hBz⟩
  have h1 : main_read buffer_lf chunks_lf = .returned B := by
    rw [main_read_nul_free buffer_lf chunks_lf hv1 hb1 hz1, hp1, feed_header_lf lines hne hl B]
  have h2 : main_read buffer_crlf chunks_crlf = .returned B := by
    rw [main_read_nul_free buffer_crlf chunks_crlf hv2 hb2 hz2, hp2,
      feed_header_crlf lines hne hl B]
  exact ⟨h1, h1.trans h2.symm⟩

set_option maxRecDepth 100000 in
/-- C3, instance: the LF-only response in two reads cut inside the blank line, the
CRLF response in one read. -/
theorem lf_header_same_as_crlf_witness :
    main_read bzero_buffer ["HTTP/1.0 200 OK\nX: a\n".toList, "\nhello".toList]
        = .returned "hello".toList ∧
      main_read bzero_buffer ["HTTP/1.0 200 OK\nX: a\n".toList, "\nhello".toList]
        = main_read bzero_buffer ["HTTP/1.0 200 OK\r\nX: a\r\n\r\nhello".toList] :=
  lf_header_same_as_crlf ["HTTP/1.0 200 OK".toList, "X: a".toList] "hello".toList
    ["HTTP/1.0 200 OK\nX: a\n".toList, "\nhello".toList]
    ["HTTP/1.0 200 OK\r\nX: a\r\n\r\nhello".toList] bzero_buffer bzero_buffer
    (by decide) (by decide) (by decide) (by decide) (by decide) (by decide) (by decide)
    (by decide) (by decide) (by decide)

set_option maxRecDepth 100000 in
/-- C3 fails as stated: after an LF-only header block a NUL in the body cuts the
output short; and bytes left in the uninitialised buffer after the first chunk are
written out as body. -/
theorem lf_header_counterexample :
    (header_line "HTTP/1.0 200 OK".toList ∧
      valid_chunk "HTTP/1.0 200 OK\n\na\x00b".toList ∧
      "HTTP/1.0 200 OK\n\na\x00b".toList
        = header_block "\n".toList ["HTTP/1.0 200 OK".toList] ++ "a\x00b".toList ∧
      main_read bzero_buffer ["HTTP/1.0 200 OK\n\na\x00b".toList] = .returned "a".toList ∧
      main_read bzero_buffer ["HTTP/1.0 200 OK\n\na\x00b".toList]
        ≠ .returned "a\x00b".toList) ∧
    ((List.replicate 24 'z' ++ List.replicate 1000 '\x00').length = buffer_size ∧
      "HTTP/1.0 200 OK\n\nhi".toList
        = header_block "\n".toList ["HTTP/1.0 200 OK".toList] ++ "hi".toList ∧
      main_read (List.replicate 24 'z' ++ List.replicate 1000 '\x00')
        ["HTTP/1.0 200 OK\n\nhi".toList] = .returned "hizzzzz".toList ∧
      main_read (List.replicate 24 'z' ++ List.replicate 1000 '\x00')
        ["HTTP/1.0 200 OK\n\nhi".toList] ≠ .returned "hi".toList) := by
  decide

/-- C4 (as amended): a NUL-free stream that is exactly a header block (one or more
header lines, `"\r\n"` or `"\n"` line endings), or on which the state machine ends
in a state other than `body` without a fatal error, makes the read loop return
normally (`return 0`) with nothing written to `stdout`, for every partition into
chunks that `read` can deliver (the buffer holding a NUL right after the first
chunk). -/
theorem no_body_stream_returns_empty (S : List Char)
    (chunks : List (List Char)) (buffer0 : List Char)
    (hz : '\x00' ∉ S)
    (hv : ∀ c ∈ chunks, valid_chunk c)
    (hp : chunks.flatten = S)
    (hb : first_read_terminated buffer0 chunks)
    (hS : (∃ lines, lines ≠ [] ∧ (∀ l ∈ lines, header_line l) ∧
            (S = header_block "\r\n".toList lines ∨ S = header_block "\n".toList lines)) ∨
          (∃ q o, feed head S = .ok (q, o) ∧ q ≠ body)) :
    main_read buffer0 chunks = .returned [] := by
  rw [main_read_nul_free buffer0 chunks hv hb (hp ▸ hz), hp]
  rcases hS with ⟨lines, hne, hl, h | h⟩ | ⟨q, o, hf, hq⟩
  · have := feed_header_crlf lines hne hl []
    rw [List.append_nil] at this
    rw [h, this]
  · have := feed_header_lf lines hne hl []
    rw [List.append_nil] at this
    rw [h, this]
  · rw [hf, feed_pre_body_silent head S q o hf hq]

set_option maxRecDepth 100000 in
/-- C4, instance: a header block and nothing else, in two reads. -/
theorem no_body_stream_returns_empty_witness :
    main_read bzero_buffer ["HTTP/1.0 200 OK\r\n\r".toList, "\n".toList] = .returned [] :=
  no_body_stream_returns_empty "HTTP/1.0 200 OK\r\n\r\n".toList
    ["HTTP/1.0 200 OK\r\n\r".toList, "\n".toList] bzero_buffer
    (by decide) (by decide) (by decide) (by decide)
    (Or.inl ⟨["HTTP/1.0 200 OK".toList], by decide, by decide, Or.inl (by decide)⟩)

set_option maxRecDepth 100000 in
/-- C4 fails as stated: on the stream `"\n\x00\nX"` the state machine ends in `head`,
yet read as `"\n\x00"` then `"\nX"` the NUL hides itself from the scan, the two
`'\n'` meet and `"X"` is written; a header block with a NUL in a line, read in
three chunks, has its last two bytes written; and after a header block that fills
the first read, bytes left in the uninitialised buffer are written out as body. -/
theorem no_body_stream_counterexample :
    (feed head "\n\x00\nX".toList = .ok (head, []) ∧
      valid_chunk "\n\x00".toList ∧ valid_chunk "\nX".toList ∧
      ["\n\x00".toList, "\nX".toList].flatten = "\n\x00\nX".toList ∧
      main_read bzero_buffer ["\n\x00".toList, "\nX".toList] = .returned "X".toList) ∧
    (header_line "X: a".toList ∧ header_line "\x00Y: b".toList ∧
      valid_chunk "X: a\r\n".toList ∧ valid_chunk "\x00Y: b\r".toList ∧
      valid_chunk "\n\r\n".toList ∧
      ["X: a\r\n".toList, "\x00Y: b\r".toList, "\n\r\n".toList].flatten
        = header_block "\r\n".toList ["X: a".toList, "\x00Y: b".toList] ∧
      main_read bzero_buffer ["X: a\r\n".toList, "\x00Y: b\r".toList, "\n\r\n".toList]
        = .returned "\r\n".toList) ∧
    ((List.replicate 24 'z' ++ List.replicate 1000 '\x00').length = buffer_size ∧
      valid_chunk "HTTP/1.0 200 OK\r\n\r\n".toList ∧
      "HTTP/1.0 200 OK\r\n\r\n".toList
        = header_block "\r\n".toList ["HTTP/1.0 200 OK".toList] ∧
      main_read (List.replicate 24 'z' ++ List.replicate 1000 '\x00')
        ["HTTP/1.0 200 OK\r\n\r\n".toList] = .returned "zzzzz".toList) :=
  ⟨⟨rfl, by decide, by decide, by decide, by decide⟩, by decide, by decide⟩

/-- C5 (as amended): for a chunk `data` free of NUL bytes stored in a buffer that
holds a NUL right after it: when the state machine, started in `st` on the bytes
before index `i`, is in a state `q` other than `body` and byte `i` takes `q` to
`body`, exactly the bytes after index `i` are written and the new state is `body`;
in state `body` the whole chunk is written and the state stays `body`; and from
state `body` the read loop writes every byte of all later NUL-free chunks, in
order. -/
theorem body_passthrough (st : read_state_t) (buffer data : List Char)
    (hz : '\x00' ∉ data) (hb : buffer[data.length]? = some '\x00') :
    (∀ (i : Nat) (q : read_state_t) (c : Char),
        feed st (data.take i) = .ok (q, []) → q ≠ body → data[i]? = some c →
        switch_step q c = .ok body →
        process_buffer st (read_into buffer data) = .done body (data.drop (i + 1))) ∧
    (st = body → process_buffer st (read_into buffer data) = .done body data) ∧
    (∀ (out : List Char) (chunks : List (List Char)),
        (∀ x ∈ chunks, valid_chunk x) → '\x00' ∉ chunks.flatten →
        read_loop body bzero_buffer out chunks = .returned (out ++ chunks.flatten)) := by
  obtain ⟨tail, ht⟩ := read_into_split buffer data hb
  rw [until_nul_of_nul_free data hz] at ht
  refine ⟨?_, ?_, ?_⟩
  · intro i q c hf hq hc hs
    have hi : i < data.length := by
      rcases Nat.lt_or_ge i data.length with h | h
      · exact h
      · rw [List.getElem?_eq_none h] at hc; cases hc
    have hsplit : data = data.take i ++ c :: data.drop (i + 1) := by
      have h1 : data[i] = c := by
        rw [List.getElem?_eq_getElem hi] at hc
        exact Option.some.inj hc
      rw [← h1, ← List.drop_eq_getElem_cons hi, List.take_append_drop]
    have hfeed : feed st data = .ok (body, data.drop (i + 1)) := by
      conv_lhs => rw [hsplit]
      rw [feed_append, hf]
      simp [feed, hq, hs, feed_body]
    rw [ht, process_buffer_nul_free data tail hz st, hfeed]
  · intro hst
    rw [ht, process_buffer_nul_free data tail hz st, hst, feed_body]
  · intro out chunks hv hzc
    have hbz : first_read_terminated bzero_buffer chunks := by
      cases chunks with
      | nil => trivial
      | cons d _ => exact bzero_terminated d (hv d (by simp))
    rw [read_loop_eq_feed chunks body bzero_buffer out hv hbz, visible_of_nul_free chunks hzc,
      feed_body]

set_option maxRecDepth 100000 in
/-- C5, instance: the chunk `"X: a\r\n\r\nhello"` scanned from `head` reaches `body`
at index 7 and `"hello"` is written. -/
theorem body_passthrough_witness :
    process_buffer head (read_into bzero_buffer "X: a\r\n\r\nhello".toList)
      = .done body "hello".toList :=
  (body_passthrough head bzero_buffer "X: a\r\n\r\nhello".toList (by decide) (by decide)).1
    7 r2 '\n' rfl (by decide) (by decide) rfl

set_option maxRecDepth 100000 in
/-- C5 fails as stated: in state `body` the chunk `"a\x00b"` gives only `"a"`; after
the step to `body` at index 0 of `"\nx\x00y"` only `"x"` is written, not the bytes
`[1, 4)`; and the first chunk `"\n\nhi"`, read into an uninitialised buffer, has the
bytes after index 1 written together with the bytes that follow the chunk there. -/
theorem body_passthrough_counterexample :
    process_buffer body (read_into bzero_buffer "a\x00b".toList) = .done body "a".toList ∧
    (switch_step n '\n' = .ok body ∧
      process_buffer n (read_into bzero_buffer "\nx\x00y".toList) = .done body "x".toList) ∧
    ((List.replicate 24 'z' ++ List.replicate 1000 '\x00').length = buffer_size ∧
      feed head "\n".toList = .ok (n, []) ∧ switch_step n '\n' = .ok body ∧
      process_buffer head
        (read_into (List.replicate 24 'z' ++ List.replicate 1000 '\x00') "\n\nhi".toList)
        = .done body ("hi".toList ++ List.replicate 20 'z')) :=
  ⟨by decide, ⟨rfl, by decide⟩, ⟨by decide, rfl, rfl, by decide⟩⟩

/-- C6: for a non-empty message and `write` calls that each accept between 0 and
all of the bytes offered: every call is offered exactly the message without the
bytes accepted so far, no call is offered an empty range, the function neither
fails nor throws, on return the accepted prefixes concatenate to the whole
message, and it does return once the listed results accept as many bytes as the
message has. -/
theorem write_to_socket_sends_whole_message (msg : List Char) (results : List Int)
    (hmsg : msg ≠ [])
    (hacc : ∀ call ∈ (write_to_socket msg results).calls,
      0 ≤ call.2 ∧ call.2 ≤ (call.1.length : Int)) :
    (∀ (i : Nat) (call : List Char × Int),
        (write_to_socket msg results).calls[i]? = some call →
        call.1 = msg.drop (accepted ((write_to_socket msg results).calls.take i))) ∧
    (∀ call ∈ (write_to_socket msg results).calls, call.1 ≠ []) ∧
    (∀ offered, (write_to_socket msg results).ending = .blocked offered →
        offered = msg.drop (accepted (write_to_socket msg results).calls) ∧ offered ≠ []) ∧
    ((write_to_socket msg results).ending = .returned →
        ((write_to_socket msg results).calls.map
          (fun call => call.1.take call.2.toNat)).flatten = msg) ∧
    ((write_to_socket msg results).ending ≠ .failed ∧
      (write_to_socket msg results).ending ≠ .out_of_range) ∧
    (msg.length ≤ (results.map Int.toNat).sum →
        (write_to_socket msg results).ending = .returned) := by
  obtain ⟨hne, hshape⟩ := write_run_shape results msg hmsg hacc
  refine ⟨write_calls_offered results msg, hne, ?_, ?_, ?_, ?_⟩
  · intro offered ho
    rcases hshape with ⟨he, _, _⟩ | ⟨he, hd, _, _⟩
    · rw [he] at ho; cases ho
    · rw [he] at ho
      have := write_end.blocked.inj ho
      rw [← this]
      exact ⟨rfl, hd⟩
  · intro hr
    rcases hshape with ⟨_, _, hf⟩ | ⟨he, _, _, _⟩
    · exact hf
    · rw [he] at hr; cases hr
  · rcases hshape with ⟨he, _, _⟩ | ⟨he, _, _, _⟩
    · rw [he]; exact ⟨by decide, by decide⟩
    · rw [he]; constructor <;> intro h <;> cases h
  · intro hsum
    rcases hshape with ⟨he, _, _⟩ | ⟨_, hd, ha, _⟩
    · exact he
    · exfalso
      apply hd
      rw [ha]
      exact List.drop_eq_nil_of_le hsum

/-- C6, instance: the 40-byte request for `h` is taken in four calls accepting 4, 0,
30 and 6 bytes. -/
theorem write_to_socket_sends_whole_message_witness :
    ((write_to_socket (request_message "h".toList []) [4, 0, 30, 6]).calls.map
        (fun call => call.1.take call.2.toNat)).flatten = request_message "h".toList [] ∧
      (write_to_socket (request_message "h".toList []) [4, 0, 30, 6]).calls.map
          (fun call => call.1.length) = [40, 36, 36, 6] :=
  ⟨(write_to_socket_sends_whole_message (request_message "h".toList []) [4, 0, 30, 6]
      (by decide) (by decide)).2.2.2.1 (by decide), by decide⟩

/-! ## The request: properties -/

/-- C7: the request sent is `"GET "`, the path (or `"/"` when the path is empty),
`" HTTP/1.0\r\nHost: "`, the host and `"\r\nAccept: */*\r\n\r\n"`, and nothing else. -/
theorem request_message_format (host path : List Char) :
    request_message host path =
      "GET ".toList ++ (if path = [] then "/".toList else path) ++
        " HTTP/1.0\r\nHost: ".toList ++ host ++ "\r\nAccept: */*\r\n\r\n".toList := by
  unfold request_message request_target
  cases path <;> simp

/-- C8: for a host without `'/'`, the URL `host ++ "/" ++ rest` splits into `host`
and `"/" ++ rest`, and the URL `host` alone splits into `host` and the empty path. -/
theorem extract_host_and_path_splits_at_first_slash (host rest : List Char)
    (h : '/' ∉ host) :
    extract_host_and_path (host ++ '/' :: rest) = (host, '/' :: rest) ∧
      extract_host_and_path host = (host, []) := by
  obtain ⟨h1, h2⟩ := split_no_slash host h
  have hall : ∀ c ∈ host, (c != '/') = true := by
    intro c hc
    have : c ≠ '/' := fun e => h (e ▸ hc)
    simpa using this
  refine ⟨?_, ?_⟩
  · unfold extract_host_and_path
    rw [List.takeWhile_append_of_pos hall, List.dropWhile_append_of_pos hall]
    simp [List.takeWhile, List.dropWhile]
  · unfold extract_host_and_path
    rw [h1, h2]

/-- C8, instance: `example.com/a/b` and `example.com`. -/
theorem extract_host_and_path_splits_at_first_slash_witness :
    extract_host_and_path ("example.com".toList ++ '/' :: "a/b".toList)
        = ("example.com".toList, '/' :: "a/b".toList) ∧
      extract_host_and_path "example.com".toList = ("example.com".toList, []) :=
  extract_host_and_path_splits_at_first_slash "example.com".toList "a/b".toList (by decide)

/-- C9: for every URL, the request is built around a request target that starts with
`'/'`, which is exactly `"/"` when the URL holds no `'/'`, and around a `Host` value
that holds no `'/'`. -/
theorem request_target_starts_with_slash (url : List Char) :
    request_message (extract_host_and_path url).1 (extract_host_and_path url).2 =
        "GET ".toList ++ request_target (extract_host_and_path url).2 ++
          " HTTP/1.0\r\nHost: ".toList ++ (extract_host_and_path url).1 ++
          "\r\nAccept: */*\r\n\r\n".toList ∧
      (request_target (extract_host_and_path url).2).head? = some '/' ∧
      ('/' ∉ url → request_target (extract_host_and_path url).2 = ['/']) ∧
      '/' ∉ (extract_host_and_path url).1 := by
  refine ⟨?_, ?_, ?_, ?_⟩
  · unfold request_message; simp
  · unfold request_target extract_host_and_path
    rcases dropWhile_slash url with h | ⟨rest, h⟩
    · simp [h]
    · simp [h]
  · intro h
    unfold request_target extract_host_and_path
    simp [(split_no_slash url h).2]
  · exact takeWhile_not_slash url

/-- C10: when a `write` call of the session returns a negative value, it is the
last `write` call, every call before it returned a non-negative value,
`write_to_socket` ends in the fatal `write() failed` exit, the read loop is never
entered and the exit status is 1; and when no `write` call returns a negative
value `write_to_socket` does not end in that exit. -/
theorem write_failure_is_fatal (url : List Char) (results : List Int)
    (buffer0 : List Char) (chunks : List (List Char)) :
    (∀ (pre post : List (List Char × Int)) (call : List Char × Int),
        (main_session url results buffer0 chunks).writes.calls = pre ++ call :: post →
        call.2 < 0 →
        post = [] ∧ (∀ c ∈ pre, 0 ≤ c.2) ∧
          (main_session url results buffer0 chunks).writes.ending = .failed ∧
          (main_session url results buffer0 chunks).response = none ∧
          (main_session url results buffer0 chunks).status = some 1) ∧
    ((∀ call ∈ (main_session url results buffer0 chunks).writes.calls, 0 ≤ call.2) →
        (main_session url results buffer0 chunks).writes.ending ≠ .failed) := by
  refine ⟨?_, ?_⟩
  · intro pre post call hcalls hneg
    have hresp := main_session_response url results buffer0 chunks
    rw [main_session_writes] at hcalls
    obtain ⟨h1, h2, h3⟩ := write_negative_is_last _ _ pre post call hcalls hneg
    rw [← main_session_writes url results buffer0 chunks] at h2
    refine ⟨h1, h3, h2, ?_, ?_⟩
    · rw [hresp, h2]; simp
    · unfold session.status; rw [h2]
  · intro hall hfail
    rw [main_session_writes] at hall hfail
    obtain ⟨c, hc, hn⟩ := write_failed_has_negative _ _ hfail
    have := hall c hc
    omega

set_option maxRecDepth 100000 in
/-- C10, instance: the third `write` fails after 5 and 0 bytes were accepted. -/
theorem write_failure_is_fatal_witness :
    (main_session "example.com".toList [5, 0, -1, 7] bzero_buffer
        ["HTTP/1.0 200 OK\r\n\r\nhello".toList]).writes.calls.map (fun call => call.2)
        = [5, 0, -1] ∧
      (main_session "example.com".toList [5, 0, -1, 7] bzero_buffer
        ["HTTP/1.0 200 OK\r\n\r\nhello".toList]).response = none ∧
      (main_session "example.com".toList [5, 0, -1, 7] bzero_buffer
        ["HTTP/1.0 200 OK\r\n\r\nhello".toList]).status = some 1 :=
  ⟨by decide,
    ((write_failure_is_fatal "example.com".toList [5, 0, -1, 7] bzero_buffer
      ["HTTP/1.0 200 OK\r\n\r\nhello".toList]).1
      [("GET / HTTP/1.0\r\nHost: example.com\r\nAccept: */*\r\n\r\n".toList, 5),
        (" HTTP/1.0\r\nHost: example.com\r\nAccept: */*\r\n\r\n".toList, 0)]
      []
      (" HTTP/1.0\r\nHost: example.com\r\nAccept: */*\r\n\r\n".toList, -1)
      (by decide) (by decide)).2.2.2⟩

/-! ## Chunks read into the cleared buffer -/

/-- The result of a chunk whose bytes up to the first NUL are `d`. -/
theorem process_buffer_cleared (st : read_state_t) (data : List Char) (h : valid_chunk data) :
    process_buffer st (read_into bzero_buffer data) =
      match feed st (until_nul data) with
      | .ok (st', printed) => .done st' printed
      | .error msg => .exit1 msg := by
  obtain ⟨tail, ht⟩ := read_into_split bzero_buffer data (bzero_terminated data h)
  rw [ht, process_buffer_nul_free _ tail (until_nul_nul_free data)]

theorem process_chunks_eq_feed (chunks : List (List Char)) (st : read_state_t)
    (hv : ∀ c ∈ chunks, valid_chunk c) :
    process_chunks st chunks =
      match feed st (chunks.map until_nul).flatten with
      | .ok (st', printed) => .done st' printed
      | .error msg => .exit1 msg := by
  induction chunks generalizing st with
  | nil => simp [process_chunks, feed]
  | cons data more ih =>
    have hv2 : ∀ c ∈ more, valid_chunk c := fun c hc => hv c (by simp [hc])
    simp only [process_chunks, process_buffer_cleared st data (hv data (by simp)),
      List.map_cons, List.flatten_cons, feed_append]
    cases hf : feed st (until_nul data) with
    | error msg => simp
    | ok p =>
      obtain ⟨s2, o⟩ := p
      simp only
      rw [ih s2 hv2]
      cases hf2 : feed s2 (List.map until_nul more).flatten with
      | error msg => simp
      | ok q => simp

/-! ## The state machine: properties -/

/-- C14:for every state other than `body` and every byte, the `switch` of the
source takes the step of the specification's table: Head: `'\r'` to SawCR, `'\n'`
to SawLF, other bytes stay; SawCR: `'\n'` to SawLF, other bytes fatal; SawLF: `'\r'`
to SawCRLF_CR, `'\n'` to Body, other bytes to Head; SawCRLF_CR: `'\n'` to Body, other
bytes fatal. -/
theorem switch_step_refines_table (st : read_state_t) (c : Char) (h : st ≠ body) :
    (switch_step st c).toOption.map spec_state = spec_table (spec_state st) c := by
  cases st
  · simp only [switch_step, spec_state, spec_table]
    split_ifs <;> rfl
  · simp only [switch_step, spec_state, spec_table]
    split_ifs <;> rfl
  · simp only [switch_step, spec_state, spec_table]
    split_ifs <;> rfl
  · simp only [switch_step, spec_state, spec_table]
    split_ifs <;> rfl
  · exact absurd rfl h

/-- C14, instance: in SawCR a second `'\r'` is fatal. -/
theorem switch_step_refines_table_witness :
    (switch_step r '\r').toOption.map spec_state = spec_table .SawCR '\r' :=
  switch_step_refines_table r '\r' (by decide)

theorem scan_loop_body(mem : List Char) :
    scan_loop body mem = .overrun ∨ ∃ printed, scan_loop body mem = .done body printed := by
  cases mem with
  | nil => left; rfl
  | cons c rest =>
    unfold scan_loop
    by_cases hc : c = '\x00'
    · right; exact ⟨[], by simp [hc]⟩
    · simp only [hc, if_false, if_true]
      cases c_str (c :: rest) with
      | none => left; rfl
      | some s => right; exact ⟨s, rfl⟩

theorem process_buffer_body (buffer : List Char) :
    process_buffer body buffer = .overrun ∨
      ∃ printed, process_buffer body buffer = .done body printed := by
  unfold process_buffer
  simp only [if_true]
  cases c_str buffer with
  | none => left; rfl
  | some s => right; exact ⟨s, rfl⟩

/-- C15: in state `body` no byte changes the state and no chunk, whatever it
holds, ends in the fatal exit: the `switch` leaves `body` as it is, the scan of a
buffer and the handling of a chunk end in `body` again, and from `body` the read
loop returns normally after any further chunks, having written each of them up to
its first NUL. -/
theorem body_is_absorbing :
    (∀ c, switch_step body c = .ok body) ∧
    (∀ mem msg, scan_loop body mem ≠ .exit1 msg) ∧
    (∀ mem st printed, scan_loop body mem = .done st printed → st = body) ∧
    (∀ buffer msg, process_buffer body buffer ≠ .exit1 msg) ∧
    (∀ buffer st printed, process_buffer body buffer = .done st printed → st = body) ∧
    (∀ (chunks : List (List Char)) (out : List Char), (∀ x ∈ chunks, valid_chunk x) →
        read_loop body bzero_buffer out chunks
          = .returned (out ++ (chunks.map until_nul).flatten)) ∧
    (∀ (chunks : List (List Char)), (∀ x ∈ chunks, valid_chunk x) →
        process_chunks body chunks = .done body (chunks.map until_nul).flatten) := by
  refine ⟨fun c => rfl, ?_, ?_, ?_, ?_, ?_, ?_⟩
  · intro mem msg h
    rcases scan_loop_body mem with h2 | ⟨p, h2⟩ <;> rw [h2] at h <;> cases h
  · intro mem st printed h
    rcases scan_loop_body mem with h2 | ⟨p, h2⟩
    · rw [h2] at h; cases h
    · rw [h2] at h; cases h; rfl
  · intro buffer msg h
    rcases process_buffer_body buffer with h2 | ⟨p, h2⟩ <;> rw [h2] at h <;> cases h
  · intro buffer st printed h
    rcases process_buffer_body buffer with h2 | ⟨p, h2⟩
    · rw [h2] at h; cases h
    · rw [h2] at h; cases h; rfl
  · intro chunks out hv
    have hbz : first_read_terminated bzero_buffer chunks := by
      cases chunks with
      | nil => trivial
      | cons d _ => exact bzero_terminated d (hv d (by simp))
    rw [read_loop_eq_feed chunks body bzero_buffer out hv hbz, feed_body]
  · intro chunks hv
    rw [process_chunks_eq_feed chunks body hv, feed_body]

set_option maxRecDepth 100000 in
/-- C15, instance: a bare `'\r'` in a later chunk is written out like any byte. -/
theorem body_is_absorbing_witness :
    read_loop body bzero_buffer [] ["a\rb".toList, "\r\r".toList]
      = .returned "a\rb\r\r".toList :=
  body_is_absorbing.2.2.2.2.2.1 ["a\rb".toList, "\r\r".toList] [] (by decide)

/-- C16: a chunk whose first NUL is at index `k` is handled as if it ended there,
whatever the buffer held before the read: the state machine is fed the bytes
`[0, k)` only; in state `body` exactly the bytes `[0, k)` are written; after a step
to `body` at an index `i < k` exactly the bytes `[i+1, k)` are written; and the
result is the same for every other choice of the bytes from index `k + 1` on. -/
theorem chunk_cut_at_first_nul (st : read_state_t) (buffer data : List Char) (k : Nat)
    (hk : data[k]? = some '\x00') (hfirst : '\x00' ∉ data.take k) :
    (process_buffer st (read_into buffer data) =
        match feed st (data.take k) with
        | .ok (st', printed) => .done st' printed
        | .error msg => .exit1 msg) ∧
    (st = body → process_buffer st (read_into buffer data) = .done body (data.take k)) ∧
    (∀ (i : Nat) (q : read_state_t) (c : Char), i < k →
        feed st (data.take i) = .ok (q, []) → q ≠ body → data[i]? = some c →
        switch_step q c = .ok body →
        process_buffer st (read_into buffer data) = .done body ((data.take k).drop (i + 1))) ∧
    (∀ (buffer2 lost : List Char),
        process_buffer st (read_into buffer2 (data.take k ++ '\x00' :: lost)) =
          process_buffer st (read_into buffer data)) := by
  have hklt : k < data.length := by
    rcases Nat.lt_or_ge k data.length with h | h
    · exact h
    · rw [List.getElem?_eq_none h] at hk; cases hk
  have hsplit : data = data.take k ++ '\x00' :: data.drop (k + 1) := by
    have h1 : data[k] = '\x00' := by
      rw [List.getElem?_eq_getElem hklt] at hk
      exact Option.some.inj hk
    rw [← h1, ← List.drop_eq_getElem_cons hklt, List.take_append_drop]
  have hbuf : ∀ (b lost : List Char), ∃ tail,
      read_into b (data.take k ++ '\x00' :: lost) = data.take k ++ '\x00' :: tail := by
    intro b lost
    exact ⟨lost ++ b.drop (data.take k ++ '\x00' :: lost).length, by simp [read_into]⟩
  have hmain : ∀ (b lost : List Char),
      process_buffer st (read_into b (data.take k ++ '\x00' :: lost)) =
        match feed st (data.take k) with
        | .ok (st', printed) => .done st' printed
        | .error msg => .exit1 msg := by
    intro b lost
    obtain ⟨tail, ht⟩ := hbuf b lost
    rw [ht, process_buffer_nul_free _ tail hfirst]
  have hdata : process_buffer st (read_into buffer data) =
        match feed st (data.take k) with
        | .ok (st', printed) => .done st' printed
        | .error msg => .exit1 msg := by
    have := hmain buffer (data.drop (k + 1))
    rwa [← hsplit] at this
  refine ⟨hdata, ?_, ?_, ?_⟩
  · intro hst
    rw [hdata, hst, feed_body]
  · intro i q c hik hf hq hc hs
    have htk : (data.take k).take i = data.take i := by
      rw [List.take_take, Nat.min_eq_left (Nat.le_of_lt hik)]
    have hci : (data.take k)[i]? = some c := by
      rw [List.getElem?_take_of_lt hik]; exact hc
    have hil : i < (data.take k).length := by
      rw [List.length_take]; omega
    have hsp : data.take k = data.take i ++ c :: (data.take k).drop (i + 1) := by
      have h1 : (data.take k)[i] = c := by
        rw [List.getElem?_eq_getElem hil] at hci
        exact Option.some.inj hci
      rw [← htk, ← h1, ← List.drop_eq_getElem_cons hil, List.take_append_drop]
    have hfeed : feed st (data.take k) = .ok (body, (data.take k).drop (i + 1)) := by
      conv_lhs => rw [hsp]
      rw [feed_append, hf]
      simp [feed, hq, hs, feed_body]
    rw [hdata, hfeed]
  · intro buffer2 lost
    rw [hmain buffer2 lost, hdata]

set_option maxRecDepth 100000 in
/-- C16, instance: in state `body` the chunk `"ab\x00cd"` is written as `"ab"`. -/
theorem chunk_cut_at_first_nul_witness :
    process_buffer body (read_into bzero_buffer "ab\x00cd".toList) = .done body "ab".toList :=
  (chunk_cut_at_first_nul body bzero_buffer "ab\x00cd".toList 2 (by decide) (by decide)).2.1 rfl

theorem c_str_none (mem : List Char) (h : '\x00' ∉ mem) : c_str mem = none := by
  induction mem with
  | nil => rfl
  | cons c rest ih =>
    simp only [List.mem_cons, not_or] at h
    have hc : c ≠ '\x00' := fun e => h.1 e.symm
    simp [c_str, hc, ih h.2]

theorem stale_buffer_overrun (stale : List Char) (h : '\x00' ∉ stale) :
    process_buffer head ('\n' :: '\n' :: 'h' :: 'i' :: stale) = .overrun := by
  have hz : '\x00' ∉ 'h' :: 'i' :: stale := by
    simp only [List.mem_cons, not_or]
    exact ⟨by decide, by decide, h⟩
  have h2 := c_str_none _ hz
  simp [process_buffer, scan_loop, switch_step, h2]

set_option maxRecDepth 100000 in
/-- C17 fails on the first chunk: the same four bytes `"\n\nhi"`, read in state
`head`, give `"hi"` when the buffer was zero, `"hi"` followed by twenty stale bytes
when the buffer held 24 non-zero bytes, and a read past the end of the array when
the 1024 bytes of the buffer held no NUL. -/
theorem first_chunk_reads_stale_bytes :
    valid_chunk "\n\nhi".toList ∧
    process_buffer head (read_into bzero_buffer "\n\nhi".toList) = .done body "hi".toList ∧
    (List.replicate 24 'z' ++ List.replicate 1000 '\x00').length = buffer_size ∧
    process_buffer head
        (read_into (List.replicate 24 'z' ++ List.replicate 1000 '\x00') "\n\nhi".toList)
      = .done body ("hi".toList ++ List.replicate 20 'z') ∧
    main_read (List.replicate 24 'z' ++ List.replicate 1000 '\x00') ["\n\nhi".toList]
      = .returned ("hi".toList ++ List.replicate 20 'z') ∧
    (List.replicate 1024 'z').length = buffer_size ∧
    process_buffer head (read_into (List.replicate 1024 'z') "\n\nhi".toList) = .overrun ∧
    main_read (List.replicate 1024 'z') ["\n\nhi".toList] = .overrun [] := by
  have hover : process_buffer head (read_into (List.replicate 1024 'z') "\n\nhi".toList)
      = .overrun := by
    have hr : read_into (List.replicate 1024 'z') "\n\nhi".toList
        = '\n' :: '\n' :: 'h' :: 'i' :: List.replicate 1020 'z' := by
      show "\n\nhi".toList ++ List.drop 4 (List.replicate 1024 'z') = _
      rw [List.drop_replicate]
      rfl
    rw [hr]
    exact stale_buffer_overrun _
      (fun h => absurd (List.mem_replicate.mp h).2 (by decide))
  refine ⟨by decide, by decide, by decide, by decide, by decide, ?_, hover, ?_⟩
  · exact List.length_replicate 1024 'z'
  · simp only [main_read, read_loop, hover]

/-- C18: two partitions of the same NUL-free stream into chunks that `read` can
deliver, each read into the cleared buffer, give the same run (the same bytes
written and the same ending) from `head`, and from any state the same state,
output and outcome; in particular handling `c1` and then `c2` is handling
`c1 ++ c2`. -/
theorem chunk_partition_independence :
    (∀ (chunks1 chunks2 : List (List Char)),
        (∀ c ∈ chunks1, valid_chunk c) → (∀ c ∈ chunks2, valid_chunk c) →
        '\x00' ∉ chunks1.flatten → chunks1.flatten = chunks2.flatten →
        main_read bzero_buffer chunks1 = main_read bzero_buffer chunks2 ∧
          ∀ st, process_chunks st chunks1 = process_chunks st chunks2) ∧
    (∀ (st : read_state_t) (c1 c2 : List Char),
        valid_chunk c1 → valid_chunk c2 → valid_chunk (c1 ++ c2) → '\x00' ∉ c1 ++ c2 →
        process_chunks st [c1, c2] = process_chunks st [c1 ++ c2]) := by
  have key : ∀ (chunks1 chunks2 : List (List Char)),
      (∀ c ∈ chunks1, valid_chunk c) → (∀ c ∈ chunks2, valid_chunk c) →
      '\x00' ∉ chunks1.flatten → chunks1.flatten = chunks2.flatten →
      ∀ st, process_chunks st chunks1 = process_chunks st chunks2 := by
    intro chunks1 chunks2 hv1 hv2 hz heq st
    have hz2 : '\x00' ∉ chunks2.flatten := heq ▸ hz
    rw [process_chunks_eq_feed chunks1 st hv1, process_chunks_eq_feed chunks2 st hv2,
      visible_of_nul_free chunks1 hz, visible_of_nul_free chunks2 hz2, heq]
  refine ⟨?_, ?_⟩
  · intro chunks1 chunks2 hv1 hv2 hz heq
    have hz2 : '\x00' ∉ chunks2.flatten := heq ▸ hz
    have hb : ∀ (chunks : List (List Char)), (∀ c ∈ chunks, valid_chunk c) →
        first_read_terminated bzero_buffer chunks := by
      intro chunks hv
      cases chunks with
      | nil => trivial
      | cons d _ => exact bzero_terminated d (hv d (by simp))
    refine ⟨?_, key chunks1 chunks2 hv1 hv2 hz heq⟩
    rw [main_read_nul_free bzero_buffer chunks1 hv1 (hb chunks1 hv1) hz,
      main_read_nul_free bzero_buffer chunks2 hv2 (hb chunks2 hv2) hz2, heq]
  · intro st c1 c2 h1 h2 h12 hz
    apply key
    · intro c hc
      simp only [List.mem_cons, List.mem_singleton, List.not_mem_nil, or_false] at hc
      rcases hc with rfl | rfl
      · exact h1
      · exact h2
    · intro c hc
      simp only [List.mem_singleton] at hc
      rw [hc]; exact h12
    · simpa using hz
    · simp

set_option maxRecDepth 100000 in
/-- C18, instance: the response cut inside the blank line and the response in one
read. -/
theorem chunk_partition_independence_witness :
    main_read bzero_buffer ["X: a\r\n\r".toList, "\nhello".toList]
      = main_read bzero_buffer ["X: a\r\n\r\nhello".toList] :=
  (chunk_partition_independence.1 ["X: a\r\n\r".toList, "\nhello".toList]
    ["X: a\r\n\r\nhello".toList] (by decide) (by decide) (by decide) (by decide)).1

/-! ## The header boundary -/

theorem suffix_snoc (l P : List Char) (y c : Char) :
    l ++ [y] <:+ P ++ [c] ↔ y = c ∧ l <:+ P := by
  rw [← List.reverse_prefix, List.reverse_append, List.reverse_append]
  simp only [List.reverse_cons, List.reverse_nil, List.nil_append, List.singleton_append]
  rw [List.cons_prefix_cons, List.reverse_prefix]

theorem suffix_one_snoc (P : List Char) (x c : Char) : [x] <:+ P ++ [c] ↔ x = c := by
  have := suffix_snoc [] P x c
  simpa using this

theorem suffix_two_snoc (P : List Char) (x y c : Char) :
    [x, y] <:+ P ++ [c] ↔ y = c ∧ [x] <:+ P :=
  suffix_snoc [x] P y c

theorem suffix_three_snoc (P : List Char) (x y z c : Char) :
    [x, y, z] <:+ P ++ [c] ↔ z = c ∧ [x, y] <:+ P :=
  suffix_snoc [x, y] P z c

theorem clean_prefixes_of_snoc (P : List Char) (c : Char) (h : clean_prefixes (P ++ [c])) :
    clean_prefixes P :=
  fun Q hQ => h Q (hQ.trans (List.prefix_append P [c]))

theorem feed_snoc (st : read_state_t) (P : List Char) (c : Char) (q : read_state_t)
    (hf : feed st P = .ok (q, [])) (hq : q ≠ body) :
    feed st (P ++ [c]) =
      match switch_step q c with
      | .error msg => .error msg
      | .ok q2 => .ok (q2, []) := by
  rw [feed_append, hf]
  simp only [feed, hq, if_false]
  cases switch_step q c <;> simp

/-- The state reached on bytes none of whose prefixes ends the header or breaks a
`'\r'`: it tells how the bytes end. -/
theorem feed_clean (P : List Char) (h : clean_prefixes P) :
    ∃ q, feed head P = .ok (q, []) ∧ q ≠ body ∧
      (q = n ↔ ['\n'] <:+ P) ∧ (q = r2 ↔ ['\n', '\r'] <:+ P) ∧ (q = r → ['\r'] <:+ P) ∧
      (['\r'] <:+ P → q = r ∨ q = r2) := by
  induction P using List.reverseRecOn with
  | nil =>
    refine ⟨head, rfl, by decide, ?_, ?_, ?_, ?_⟩ <;> simp
  | append_singleton P c ih =>
    obtain ⟨q, hf, hq, hn, hr2, hr, _⟩ := ih (clean_prefixes_of_snoc P c h)
    have hself := h (P ++ [c]) (List.prefix_refl _)
    have hnot_end : ¬ ends_header (P ++ [c]) := hself.1
    have hnot_cr : ¬ cr_then_other (P ++ [c]) := hself.2
    have hstep := feed_snoc head P c q hf hq
    cases q with
    | body => exact absurd rfl hq
    | head =>
      have hPn : ¬ ['\n'] <:+ P := fun e => by have := hn.mpr e; cases this
      simp only [switch_step] at hstep
      by_cases h1 : c = '\r'
      · subst h1
        refine ⟨r, by simpa using hstep, by decide, ?_, ?_, ?_, ?_⟩
        · simp [suffix_one_snoc]
        · simp [suffix_two_snoc, hPn]
        · intro _; simp [suffix_one_snoc]
        · intro _; simp
      · by_cases h2 : c = '\n'
        · subst h2
          refine ⟨n, by simpa using hstep, by decide, ?_, ?_, ?_, ?_⟩
          · simp [suffix_one_snoc]
          · simp [suffix_two_snoc]
          · intro e; cases e
          · simp [suffix_one_snoc]
        · refine ⟨head, by simpa [h1, h2] using hstep, by decide, ?_, ?_, ?_, ?_⟩
          · simp [suffix_one_snoc, Ne.symm h2]
          · simp [suffix_two_snoc, Ne.symm h1]
          · intro e; cases e
          · simp [suffix_one_snoc, Ne.symm h1]
    | r =>
      have hPr : ['\r'] <:+ P := hr rfl
      simp only [switch_step] at hstep
      by_cases h2 : c = '\n'
      · subst h2
        refine ⟨n, by simpa using hstep, by decide, ?_, ?_, ?_, ?_⟩
        · simp [suffix_one_snoc]
        · simp [suffix_two_snoc]
        · intro e; cases e
        · simp [suffix_one_snoc]
      · exact absurd ⟨c, h2, (suffix_two_snoc P '\r' c c).mpr ⟨rfl, hPr⟩⟩ hnot_cr
    | n =>
      have hPn : ['\n'] <:+ P := hn.mp rfl
      simp only [switch_step] at hstep
      by_cases h1 : c = '\r'
      · subst h1
        refine ⟨r2, by simpa using hstep, by decide, ?_, ?_, ?_, ?_⟩
        · simp [suffix_one_snoc]
        · simp [suffix_two_snoc, hPn]
        · intro e; cases e
        · intro _; simp
      · by_cases h2 : c = '\n'
        · subst h2
          exact absurd (Or.inl ((suffix_two_snoc P '\n' '\n' '\n').mpr ⟨rfl, hPn⟩)) hnot_end
        · refine ⟨head, by simpa [h1, h2] using hstep, by decide, ?_, ?_, ?_, ?_⟩
          · simp [suffix_one_snoc, Ne.symm h2]
          · simp [suffix_two_snoc, Ne.symm h1]
          · intro e; cases e
          · simp [suffix_one_snoc, Ne.symm h1]
    | r2 =>
      have hPnr : ['\n', '\r'] <:+ P := hr2.mp rfl
      by_cases h2 : c = '\n'
      · subst h2
        exact absurd
          (Or.inr ((suffix_three_snoc P '\n' '\r' '\n' '\n').mpr ⟨rfl, hPnr⟩)) hnot_end
      · have hPr : ['\r'] <:+ P := by
          obtain ⟨t, ht⟩ := hPnr
          exact ⟨t ++ ['\n'], by simp [← ht]⟩
        exact absurd ⟨c, h2, (suffix_two_snoc P '\r' c c).mpr ⟨rfl, hPr⟩⟩ hnot_cr

theorem length_le_accepted (calls : List (List Char × Int)) (h : ∀ call ∈ calls, 1 ≤ call.2) :
    calls.length ≤ accepted calls := by
  induction calls with
  | nil => simp [accepted]
  | cons call more ih =>
    have h1 := h call (by simp)
    have h2 := ih (fun c hc => h c (by simp [hc]))
    simp only [accepted, List.map_cons, List.sum_cons, List.length_cons] at h2 ⊢
    have : 1 ≤ call.2.toNat := by omega
    omega

theorem write_calls_shrink (results : List Int) (msg : List Char)
    (hprog : ∀ call ∈ (write_to_socket msg results).calls,
      1 ≤ call.2 ∧ call.2 ≤ (call.1.length : Int)) :
    (∀ call ∈ (write_to_socket msg results).calls, call.1.length ≤ msg.length) ∧
      (((write_to_socket msg results).calls.map (fun call => call.1.length)).Pairwise
        (fun a b => b < a)) := by
  induction results generalizing msg with
  | nil => simp [write_to_socket]
  | cons n more ih =>
    unfold write_to_socket at hprog ⊢
    split_ifs at hprog ⊢ with h1 h2 h3
    · simp
    · simp
    · simp
    · have hn := hprog (msg, n) (by simp)
      simp only at hn
      have hp2 : ∀ call ∈ (write_to_socket (msg.drop n.toNat) more).calls,
          1 ≤ call.2 ∧ call.2 ≤ (call.1.length : Int) :=
        fun c hc => hprog c (by simp [hc])
      obtain ⟨hle, hpw⟩ := ih (msg.drop n.toNat) hp2
      have hdrop : (msg.drop n.toNat).length < msg.length := by
        rw [List.length_drop]; omega
      refine ⟨?_, ?_⟩
      · intro call hc
        simp only [List.mem_cons] at hc
        rcases hc with rfl | hc
        · exact Nat.le_refl _
        · exact Nat.le_of_lt (Nat.lt_of_le_of_lt (hle call hc) hdrop)
      · simp only [List.map_cons, List.pairwise_cons]
        refine ⟨?_, hpw⟩
        intro b hb
        obtain ⟨call, hc, rfl⟩ := List.mem_map.mp hb
        exact Nat.lt_of_le_of_lt (hle call hc) hdrop

/-- C20: when every `write` call made accepts at least one and at most all of the
bytes offered, and at least as many results are listed as the non-empty message
has bytes, `write_to_socket` returns, after at most as many calls as the message
has bytes; until then every call is offered strictly fewer bytes than the one
before. -/
theorem write_to_socket_terminates (msg : List Char) (results : List Int)
    (hmsg : msg ≠ [])
    (hprog : ∀ call ∈ (write_to_socket msg results).calls,
      1 ≤ call.2 ∧ call.2 ≤ (call.1.length : Int))
    (hlen : msg.length ≤ results.length) :
    (write_to_socket msg results).ending = .returned ∧
      (write_to_socket msg results).calls.length ≤ msg.length ∧
      (((write_to_socket msg results).calls.map (fun call => call.1.length)).Pairwise
        (fun a b => b < a)) := by
  have hacc : ∀ call ∈ (write_to_socket msg results).calls,
      0 ≤ call.2 ∧ call.2 ≤ (call.1.length : Int) :=
    fun c hc => ⟨by have := (hprog c hc).1; omega, (hprog c hc).2⟩
  have hpos : ∀ call ∈ (write_to_socket msg results).calls, 1 ≤ call.2 :=
    fun c hc => (hprog c hc).1
  have hle := length_le_accepted _ hpos
  obtain ⟨_, hshape⟩ := write_run_shape results msg hmsg hacc
  have hret : (write_to_socket msg results).ending = .returned ∧
      (write_to_socket msg results).calls.length ≤ msg.length := by
    rcases hshape with ⟨he, ha, _⟩ | ⟨_, hd, _, hl⟩
    · exact ⟨he, by omega⟩
    · exfalso
      apply hd
      apply List.drop_eq_nil_of_le
      omega
  exact ⟨hret.1, hret.2, (write_calls_shrink results msg hprog).2⟩

/-- C20, instance: the 40-byte request for `h`, one byte accepted per call. -/
theorem write_to_socket_terminates_witness :
    (write_to_socket (request_message "h".toList []) (List.replicate 40 1)).ending = .returned ∧
      (write_to_socket (request_message "h".toList []) (List.replicate 40 1)).calls.length
        ≤ (request_message "h".toList []).length :=
  ⟨(write_to_socket_terminates (request_message "h".toList []) (List.replicate 40 1)
      (by decide) (by decide) (by decide)).1,
    (write_to_socket_terminates (request_message "h".toList []) (List.replicate 40 1)
      (by decide) (by decide) (by decide)).2.1⟩

/-! ## Traces of `main` -/

theorem read_and_close_shape (reads : List read_ret) (st : read_state_t) (buffer : List Char) :
    ∃ evs tail, read_and_close st buffer reads = evs ++ tail ∧ calm evs ∧ trace_end tail := by
  induction reads generalizing st buffer with
  | nil => exact ⟨[], [], rfl, by simp [calm], Or.inl rfl⟩
  | cons ret more ih =>
    unfold read_and_close
    by_cases hn : 0 < ret.n
    · simp only [hn, if_true]
      have hread : calm [event.read ret.n] := by
        intro ev hev
        simp only [List.mem_singleton] at hev
        subst hev
        exact ⟨rfl, fun m hm => by cases hm; exact hn⟩
      cases hp : process_buffer st (read_into buffer ret.data) with
      | done st2 printed =>
        obtain ⟨evs, tail, h1, h2, h3⟩ := ih st2 bzero_buffer
        refine ⟨.read ret.n :: .stdout printed :: evs, tail, by simp [h1], ?_, h3⟩
        intro ev hev
        simp only [List.mem_cons] at hev
        rcases hev with rfl | rfl | hev
        · exact ⟨rfl, fun m hm => by cases hm; exact hn⟩
        · exact ⟨rfl, fun m hm => by cases hm⟩
        · exact h2 ev hev
      | exit1 msg =>
        exact ⟨[.read ret.n], [.stderr msg, .exit 1], rfl, hread, Or.inr (Or.inr ⟨msg, rfl⟩)⟩
      | overrun =>
        exact ⟨[.read ret.n], [], rfl, hread, Or.inl rfl⟩
    · simp only [hn, if_false]
      exact ⟨[], [.read ret.n, .close, .exit 0], rfl, by simp [calm],
        Or.inr (Or.inl ⟨ret.n, by omega, rfl⟩)⟩

theorem main_shape (e : env) :
    ∃ evs tail, main e = evs ++ tail ∧ calm evs ∧ trace_end tail := by
  unfold main
  cases ha : main_arguments e.argv e.freopen_ok with
  | error events =>
    simp only
    refine ⟨[], events, rfl, by simp [calm], ?_⟩
    unfold main_arguments at ha
    split_ifs at ha <;> cases ha <;> exact Or.inr (Or.inr ⟨_, rfl⟩)
  | ok url =>
    simp only
    have hsock : calm [event.socket e.socket_ret] := by
      intro ev hev
      simp only [List.mem_singleton] at hev
      subst hev
      exact ⟨rfl, fun m hm => by cases hm⟩
    split_ifs with h1 h2 h3
    · exact ⟨[.socket e.socket_ret], _, rfl, hsock, Or.inr (Or.inr ⟨_, rfl⟩)⟩
    · exact ⟨[.socket e.socket_ret], _, rfl, hsock, Or.inr (Or.inr ⟨_, rfl⟩)⟩
    · exact ⟨[.socket e.socket_ret], _, rfl, hsock, Or.inr (Or.inr ⟨_, rfl⟩)⟩
    · have hw : ∀ (calls : List (List Char × Int)),
          calm (event.socket e.socket_ret :: calls.map (fun call => event.write call.1 call.2)) := by
        intro calls ev hev
        simp only [List.mem_cons, List.mem_map] at hev
        rcases hev with rfl | ⟨c, _, rfl⟩
        · exact ⟨rfl, fun m hm => by cases hm⟩
        · exact ⟨rfl, fun m hm => by cases hm⟩
      split
      · obtain ⟨evs, tail, h1, h2, h3⟩ := read_and_close_shape e.reads head e.buffer0
        refine ⟨(event.socket e.socket_ret ::
          (write_to_socket (request_message (extract_host_and_path url).1
            (extract_host_and_path url).2) e.write_rets).calls.map
              (fun call => event.write call.1 call.2)) ++ evs, tail, by rw [h1]; simp, ?_, h3⟩
        intro ev hev
        rcases List.mem_append.mp hev with h | h
        · exact hw _ ev h
        · exact h2 ev h
      · exact ⟨_, _, rfl, hw _, Or.inr (Or.inr ⟨_, rfl⟩)⟩
      · exact ⟨_, [], by rw [List.append_nil, List.append_nil], hw _, Or.inl rfl⟩

theorem cannot_open_ne_usage (path : List Char) :
    "Can\x27t open " ++ String.mk path ++ " for writing\n" ≠ usage_message ++ "\n" := by
  intro h
  have := congrArg String.data h
  simp [String.data_append, usage_message] at this

theorem starts_with_dash_o_iff (a : List Char) :
    starts_with_dash_o a = true ↔ ['-', 'o'] <+: a := by
  cases a with
  | nil => simp [starts_with_dash_o]
  | cons c0 t =>
    cases t with
    | nil => simp [starts_with_dash_o, List.cons_prefix_cons]
    | cons c1 t2 =>
      simp only [starts_with_dash_o, List.cons_prefix_cons, Bool.and_eq_true, beq_iff_eq,
        List.nil_prefix, and_true]
      constructor <;> rintro ⟨rfl, rfl⟩ <;> exact ⟨rfl, rfl⟩

theorem calm_no_close (evs : List event) (h : calm evs) : event.close ∉ evs :=
  fun hc => by have := (h _ hc).1; cases this

theorem calm_no_exit (evs : List event) (h : calm evs) (k : Nat) : event.exit k ∉ evs :=
  fun hc => by have := (h _ hc).1; cases this

theorem calm_no_stderr (evs : List event) (h : calm evs) (msg : String) :
    event.stderr msg ∉ evs :=
  fun hc => by have := (h _ hc).1; cases this

/-- C11 (as amended): when a `read` of the run returns a negative value, the run
ends as at end-of-stream: nothing is written to `stderr`, `close(sockfd)` is
called and the process returns exit status 0; before that `read` the trace holds
only calls that went through and output. -/
theorem read_failure_ends_as_end_of_stream (e : env) (n : Int) (hn : n < 0)
    (hr : event.read n ∈ main e) :
    ∃ evs, main e = evs ++ [.read n, .close, .exit 0] ∧
      (∀ ev ∈ evs, ev.quiet = true) ∧
      (∀ msg, event.stderr msg ∉ main e) ∧ event.exit 1 ∉ main e := by
  obtain ⟨evs, tail, h1, h2, h3⟩ := main_shape e
  rw [h1] at hr ⊢
  have htail : event.read n ∈ tail := by
    rcases List.mem_append.mp hr with h | h
    · have := (h2 _ h).2 n rfl
      omega
    · exact h
  rcases h3 with rfl | ⟨m, hm, rfl⟩ | ⟨msg, rfl⟩
  · simp at htail
  · have hnm : n = m := by simpa using htail
    subst hnm
    refine ⟨evs, rfl, fun ev hev => (h2 ev hev).1, ?_, ?_⟩
    · intro msg hmem
      rcases List.mem_append.mp hmem with h | h
      · exact calm_no_stderr evs h2 msg h
      · simp at h
    · intro hmem
      rcases List.mem_append.mp hmem with h | h
      · exact calm_no_exit evs h2 1 h
      · simp at h
  · simp at htail

/-- C13 (as amended): in every trace of `main`, an exit with status 0 comes right
after the only `close` of the trace, and a trace with an exit of status 1, or with
no exit at all, holds no `close`; the process only exits with status 0 or 1. -/
theorem close_only_on_normal_return (e : env) :
    (event.exit 0 ∈ main e →
        ∃ evs, main e = evs ++ [.close, .exit 0] ∧ event.close ∉ evs) ∧
    (event.exit 1 ∈ main e → event.close ∉ main e) ∧
    ((∀ k, event.exit k ∉ main e) → event.close ∉ main e) ∧
    (∀ k, event.exit k ∈ main e → k = 0 ∨ k = 1) := by
  obtain ⟨evs, tail, h1, h2, h3⟩ := main_shape e
  rw [h1]
  have hc := calm_no_close evs h2
  have hx := calm_no_exit evs h2
  rcases h3 with rfl | ⟨m, hm, rfl⟩ | ⟨msg, rfl⟩
  · refine ⟨?_, ?_, ?_, ?_⟩
    · intro h; rw [List.append_nil] at h; exact absurd h (hx 0)
    · intro h; rw [List.append_nil] at h; exact absurd h (hx 1)
    · intro _; rw [List.append_nil]; exact hc
    · intro k h; rw [List.append_nil] at h; exact absurd h (hx k)
  · refine ⟨?_, ?_, ?_, ?_⟩
    · intro _
      refine ⟨evs ++ [.read m], by simp, ?_⟩
      intro h
      rcases List.mem_append.mp h with h | h
      · exact hc h
      · simp at h
    · intro h
      rcases List.mem_append.mp h with h | h
      · exact absurd h (hx 1)
      · simp at h
    · intro h
      exact absurd (List.mem_append_right evs (by simp : event.exit 0 ∈ [event.read m, .close, .exit 0])) (h 0)
    · intro k h
      rcases List.mem_append.mp h with h | h
      · exact absurd h (hx k)
      · left; simpa using h
  · refine ⟨?_, ?_, ?_, ?_⟩
    · intro h
      rcases List.mem_append.mp h with h | h
      · exact absurd h (hx 0)
      · simp at h
    · intro _ h
      rcases List.mem_append.mp h with h | h
      · exact hc h
      · simp at h
    · intro h
      exact absurd (List.mem_append_right evs (by simp : event.exit 1 ∈ [event.stderr msg, .exit 1])) (h 1)
    · intro k h
      rcases List.mem_append.mp h with h | h
      · exact absurd h (hx k)
      · right; simpa using h

set_option maxRecDepth 100000 in
/-- C11, instance: the second `read` fails after the first delivered the whole
response. -/
theorem read_failure_ends_as_end_of_stream_witness :
    ∃ evs, main (env_with ["./wask".toList, "h".toList] true 0 [40]
        [⟨21, "HTTP/1.0 200 OK\r\n\r\nhi".toList⟩, ⟨-1, []⟩])
          = evs ++ [.read (-1), .close, .exit 0] ∧
      (∀ ev ∈ evs, ev.quiet = true) ∧
      (∀ msg, event.stderr msg ∉ main (env_with ["./wask".toList, "h".toList] true 0 [40]
        [⟨21, "HTTP/1.0 200 OK\r\n\r\nhi".toList⟩, ⟨-1, []⟩])) ∧
      event.exit 1 ∉ main (env_with ["./wask".toList, "h".toList] true 0 [40]
        [⟨21, "HTTP/1.0 200 OK\r\n\r\nhi".toList⟩, ⟨-1, []⟩]) :=
  read_failure_ends_as_end_of_stream
    (env_with ["./wask".toList, "h".toList] true 0 [40]
      [⟨21, "HTTP/1.0 200 OK\r\n\r\nhi".toList⟩, ⟨-1, []⟩])
    (-1) (by decide) (by decide)

set_option maxRecDepth 100000 in
/-- C11 fails as stated: a `read` that returns -1, first or later, ends the loop
like end-of-stream; the trace goes on with `close` and exit status 0 and holds no
diagnostic. -/
theorem read_failure_counterexample :
    main (env_with ["./wask".toList, "h".toList] true 0 [40] [⟨-1, []⟩])
      = [.socket 3, .write "GET / HTTP/1.0\r\nHost: h\r\nAccept: */*\r\n\r\n".toList 40,
          .read (-1), .close, .exit 0] ∧
    main (env_with ["./wask".toList, "h".toList] true 0 [40]
        [⟨21, "HTTP/1.0 200 OK\r\n\r\nhi".toList⟩, ⟨-1, []⟩])
      = [.socket 3, .write "GET / HTTP/1.0\r\nHost: h\r\nAccept: */*\r\n\r\n".toList 40,
          .read 21, .stdout "hi".toList, .read (-1), .close, .exit 0] := by
  decide

set_option maxRecDepth 100000 in
/-- C13, instance: a run to end-of-stream closes the socket once, right before
the exit with status 0. -/
theorem close_only_on_normal_return_witness :
    ∃ evs, main (env_with ["./wask".toList, "h".toList] true 0 [40]
        [⟨21, "HTTP/1.0 200 OK\r\n\r\nhi".toList⟩, ⟨0, []⟩])
          = evs ++ [.close, .exit 0] ∧ event.close ∉ evs :=
  (close_only_on_normal_return (env_with ["./wask".toList, "h".toList] true 0 [40]
    [⟨21, "HTTP/1.0 200 OK\r\n\r\nhi".toList⟩, ⟨0, []⟩])).1 (by decide)

set_option maxRecDepth 100000 in
/-- C13 fails as stated: after `socket` has returned the descriptor 3, a failed
host lookup, a failed `connect`, a failed `write` and a malformed header
termination each end the process with status 1 and without any `close`. -/
theorem close_on_fatal_counterexample :
    main (env_with ["./wask".toList, "h".toList] false 0 [] [])
      = [.socket 3, .stderr "gethostbyname() failed", .exit 1] ∧
    main (env_with ["./wask".toList, "h".toList] true (-1) [] [])
      = [.socket 3, .stderr "connect() failed", .exit 1] ∧
    main (env_with ["./wask".toList, "h".toList] true 0 [-1] [])
      = [.socket 3, .write "GET / HTTP/1.0\r\nHost: h\r\nAccept: */*\r\n\r\n".toList (-1),
          .stderr "write() failed", .exit 1] ∧
    main (env_with ["./wask".toList, "h".toList] true 0 [40] [⟨3, "\rX\n".toList⟩])
      = [.socket 3, .write "GET / HTTP/1.0\r\nHost: h\r\nAccept: */*\r\n\r\n".toList 40,
          .read 3, .stderr "No \\n after \\r\n", .exit 1] := by
  decide

/-! ## The argument checks -/

theorem main_of_url (e : env) (url : List Char)
    (h : main_arguments e.argv e.freopen_ok = .ok url) :
    ∃ rest, main e = .socket e.socket_ret :: rest := by
  unfold main
  rw [h]
  simp only
  split_ifs
  · exact ⟨_, rfl⟩
  · exact ⟨_, rfl⟩
  · exact ⟨_, rfl⟩
  · exact ⟨_, rfl⟩

theorem main_of_early_exit (e : env) (events : List event)
    (h : main_arguments e.argv e.freopen_ok = .error events) : main e = events := by
  unfold main
  rw [h]

/-- C12 (as amended): the argument checks of `main` end the run with the usage
message and status 1 exactly when fewer than two arguments are given (`argv[0]`
counted), or `argv[1]` begins with `-o` and fewer than four are given.  For every
other argument vector the URL is the last argument, unless `argv[1]` begins with
`-o` and the output file cannot be opened, in which case the run ends with the
cannot-open diagnostic. -/
theorem usage_error_iff (e : env) :
    (main e = show_usage_and_exit ↔
        (e.argv.length < 2 ∨ (['-', 'o'] <+: e.argv.getD 1 [] ∧ e.argv.length < 4))) ∧
    (main_arguments e.argv e.freopen_ok = .error show_usage_and_exit ↔
        (e.argv.length < 2 ∨ (['-', 'o'] <+: e.argv.getD 1 [] ∧ e.argv.length < 4))) ∧
    (¬ (e.argv.length < 2 ∨ (['-', 'o'] <+: e.argv.getD 1 [] ∧ e.argv.length < 4)) →
        main_arguments e.argv e.freopen_ok = .ok (e.argv.getLastD []) ∨
        (['-', 'o'] <+: e.argv.getD 1 [] ∧ e.freopen_ok = false ∧
          main e = [.stderr ("Can\x27t open " ++ String.mk (e.argv.getD 2 [])
            ++ " for writing\n"), .exit 1])) := by
  have hargs : main_arguments e.argv e.freopen_ok = .error show_usage_and_exit ↔
      (e.argv.length < 2 ∨ (['-', 'o'] <+: e.argv.getD 1 [] ∧ e.argv.length < 4)) := by
    rw [← starts_with_dash_o_iff]
    unfold main_arguments
    split_ifs with h1 h2 h3 h4
    · exact ⟨fun _ => Or.inl h1, fun _ => rfl⟩
    · exact ⟨fun _ => Or.inr ⟨h2, h3⟩, fun _ => rfl⟩
    · constructor
      · intro h
        have h5 := Except.error.inj h
        simp only [show_usage_and_exit, List.cons.injEq, event.stderr.injEq, and_true] at h5
        exact absurd h5 (cannot_open_ne_usage _)
      · rintro (h | ⟨_, h⟩)
        · exact absurd h h1
        · exact absurd h h3
    · constructor
      · intro h; cases h
      · rintro (h | ⟨_, h⟩)
        · exact absurd h h1
        · exact absurd h h3
    · constructor
      · intro h; cases h
      · rintro (h | ⟨h, _⟩)
        · exact absurd h h1
        · exact absurd h h2
  refine ⟨?_, hargs, ?_⟩
  · rw [← hargs]
    constructor
    · intro hm
      cases ha : main_arguments e.argv e.freopen_ok with
      | error events =>
        rw [main_of_early_exit e events ha] at hm
        rw [hm]
      | ok url =>
        obtain ⟨rest, hr⟩ := main_of_url e url ha
        rw [hr] at hm
        simp [show_usage_and_exit] at hm
    · intro ha
      exact main_of_early_exit e _ ha
  · intro hno
    rw [← starts_with_dash_o_iff] at hno ⊢
    have h1 : ¬ e.argv.length < 2 := fun h => hno (Or.inl h)
    by_cases h2 : starts_with_dash_o (e.argv.getD 1 []) = true
    · have h3 : ¬ e.argv.length < 4 := fun h => hno (Or.inr ⟨h2, h⟩)
      by_cases h4 : e.freopen_ok = true
      · left
        unfold main_arguments
        rw [if_neg h1, if_pos h2, if_neg h3, if_neg (by simp [h4])]
      · right
        have h5 : e.freopen_ok = false := by simpa using h4
        refine ⟨h2, h5, ?_⟩
        apply main_of_early_exit
        unfold main_arguments
        rw [if_neg h1, if_pos h2, if_neg h3, if_pos (by simp [h5])]
    · left
      unfold main_arguments
      rw [if_neg h1, if_neg h2]

set_option maxRecDepth 100000 in
/-- C12, instance: `-o` followed by a path but no URL is a usage error. -/
theorem usage_error_iff_witness :
    main (env_with ["./wask".toList, "-o".toList, "out.txt".toList] true 0 [] [])
      = [.stderr "Usage: ./wask [-o OUTPUT_PATH] URL\n", .exit 1] :=
  (usage_error_iff (env_with ["./wask".toList, "-o".toList, "out.txt".toList] true 0 [] [])).1.mpr
    (Or.inr ⟨by decide, by decide⟩)

set_option maxRecDepth 100000 in
/-- C12 fails as stated: with the arguments `-ox`, or `-ox h`, an argument is given
and the first argument is not `-o`, yet the run ends with the usage message
where the claim has it go on with the last argument as the URL. -/
theorem usage_error_counterexample :
    "-ox".toList ≠ "-o".toList ∧
    main (env_with ["./wask".toList, "-ox".toList] true 0 [40] [⟨0, []⟩])
      = [.stderr "Usage: ./wask [-o OUTPUT_PATH] URL\n", .exit 1] ∧
    main (env_with ["./wask".toList, "-ox".toList, "h".toList] true 0 [40] [⟨0, []⟩])
      = [.stderr "Usage: ./wask [-o OUTPUT_PATH] URL\n", .exit 1] ∧
    main (env_with ["./wask".toList, "h".toList] true 0 [40] [⟨0, []⟩])
      = [.socket 3, .write "GET / HTTP/1.0\r\nHost: h\r\nAccept: */*\r\n\r\n".toList 40,
          .read 0, .close, .exit 0] := by
  decide

end Wask
